import Mathlib

/-!
# Shingles: n-gram counting store

A shallow embedding of `shingles.go`: the tokenizer (`sentences`, `words`), the sliding
window generator (`computeNGrams`) and the hash-indexed counting store (`Shingles` with
`add`, `Initialize`, `Count`, `Incorporate`, `Walk`, `SortedWalk`).

Modelling decisions.
* A Go string is a list of runes (`List Char`): the text is taken to be valid UTF-8. The
  checksum is computed over its UTF-8 bytes.
* Go `int` is `Int`; the subtraction and addition of `computeNGrams` wrap to 64 bits.
  Occurrence counters are natural numbers: a counter wraps only after 2^63 additions.
* A run-time panic (slice out of range, write to a nil map, nil pointer dereference, index
  out of range) is the result `none`.
* The map of the store is an association list with one entry per key; its list order stands
  for the unspecified iteration order of a Go map.
* A `float32` is modelled exactly, as mantissa and exponent; conversion and division round to
  the nearest value, ties to the even mantissa (IEEE 754). Only values that are not negative
  occur.
* The standard library is modelled by its documented behaviour: `regexp` (leftmost-first
  matching of the two patterns used), `strings.Join`, `strings.ToLower`, `hash/crc32`,
  `sort.Sort`.
-/

namespace Goshingles

/-- A Go string, as its sequence of runes. -/
abbrev GoString := List Char

/-! ## Standard library: strings, hash/crc32 -/

/-- The UTF-8 encoding of one rune, as bytes. -/
def utf8Bytes (c : Char) : List Nat :=
  let n := c.toNat
  if n < 0x80 then [n]
  else if n < 0x800 then [0xC0 + n / 0x40, 0x80 + n % 0x40]
  else if n < 0x10000 then [0xE0 + n / 0x1000, 0x80 + n / 0x40 % 0x40, 0x80 + n % 0x40]
  else [0xF0 + n / 0x40000, 0x80 + n / 0x1000 % 0x40, 0x80 + n / 0x40 % 0x40, 0x80 + n % 0x40]

/-- The bytes of a Go string: `[]byte(s)`. -/
def bytes (s : GoString) : List Nat := s.flatMap utf8Bytes

/-- One bit of the reflected CRC-32 division by the IEEE polynomial. -/
def crcShift (crc : Nat) : Nat :=
  if crc % 2 = 1 then (crc >>> 1) ^^^ 0xEDB88320 else crc >>> 1

/-- The CRC-32 register after one more input byte. -/
def crcByte (crc b : Nat) : Nat :=
  crcShift (crcShift (crcShift (crcShift (crcShift (crcShift (crcShift (crcShift (crc ^^^ b))))))))

/-- The library function `crc32.ChecksumIEEE`. -/
def checksumIEEE (data : List Nat) : Nat :=
  (data.foldl crcByte 0xFFFFFFFF) ^^^ 0xFFFFFFFF

/-- The library function `strings.Join`. -/
def stringsJoin (elems : List GoString) (sep : GoString) : GoString :=
  sep.intercalate elems

/-- The library function `strings.ToLower` on ASCII text: `A` to `Z` become `a` to `z`. It is
applied to matches of `[\w'-]`, which hold ASCII characters only. -/
def stringsToLower (s : GoString) : GoString := s.map Char.toLower

/-! ## Standard library: regexp

Both patterns of the program have the shape `\b(C{1,})\b` for a character class `C`. The
functions below give the matches `FindAllString` returns for such a pattern: a match starts
at the leftmost position that lies on a word boundary, takes the run of class runes after it
and gives runes back until its end lies on a word boundary again; the search then goes on
behind the match. -/

/-- The class `\w`: ASCII letters, digits and the underscore. -/
def isWordChar (c : Char) : Bool := c.isAlphanum || c == '_'

/-- Whether a neighbour of a position is a word rune; the ends of the text are not. -/
def isWordSide : Option Char → Bool
  | none => false
  | some c => isWordChar c

/-- The assertion `\b` at a position, from the rune before it and the rune after it. -/
def isWordBoundary (before after : Option Char) : Bool :=
  isWordSide before != isWordSide after

/-- Runs through the class runes that follow a match of `len` runes ending in `prev`, and
returns the longest length seen whose end lies on a word boundary (`best` when there is none
further on): the greedy repetition, backed off to the last boundary. -/
def scanRun (cls : Char → Bool) : Char → List Char → Nat → Option Nat → Option Nat
  | prev, [], len, best => if isWordBoundary (some prev) none then some len else best
  | prev, c :: cs, len, best =>
    let best1 := if isWordBoundary (some prev) (some c) then some len else best
    if cls c then scanRun cls c cs (len + 1) best1 else best1

/-- The length of the match of `\b(C{1,})\b` that starts at the current position, if there
is one; `before` is the rune before the position. -/
def matchAt (cls : Char → Bool) (before : Option Char) : List Char → Option Nat
  | [] => none
  | c :: cs =>
    if isWordBoundary before (some c) && cls c then scanRun cls c cs 1 none else none

/-- The successive matches of `\b(C{1,})\b` in the rest of a text; `skip` counts the runes
of the last match that still lie ahead. -/
def findAllFrom (cls : Char → Bool) : Option Char → List Char → Nat → List GoString
  | _, [], _ => []
  | _, c :: cs, skip + 1 => findAllFrom cls (some c) cs skip
  | before, c :: cs, 0 =>
    match matchAt cls before (c :: cs) with
    | some len => (c :: cs).take len :: findAllFrom cls (some c) cs (len - 1)
    | none => findAllFrom cls (some c) cs 0

/-- The call `re.FindAllString(s, -1)` for the pattern `\b(C{1,})\b`. -/
def findAllString (cls : Char → Bool) (s : GoString) : List GoString :=
  findAllFrom cls none s 0

/-! ## The program -/

/-- The constants `UNIGRAM` to `EIGHTGRAM`. -/
def UNIGRAM : Int := 1
def BIGRAM : Int := 2
def TRIGRAM : Int := 3
def FOURGRAM : Int := 4
def FIVEGRAM : Int := 5
def SIXGRAM : Int := 6
def SEVENGRAM : Int := 7
def EIGHTGRAM : Int := 8

/-- The fixed list of English stopwords. -/
def stopwords : List GoString :=
  ["i", "me", "my", "myself", "we", "our", "ours", "ourselves",
   "you", "your", "yours", "yourself", "yourselves", "he", "him", "his", "himself", "she",
   "her", "hers", "herself", "it", "its", "itself", "they", "them", "their", "theirs",
   "themselves", "what", "which", "who", "whom", "this", "that", "these", "those", "am",
   "is", "are", "was", "were", "be", "been", "being", "have", "has", "had", "having", "do",
   "does", "did", "doing", "a", "an", "the", "and", "but", "if", "or", "because", "as",
   "until", "while", "of", "at", "by", "for", "with", "about", "against", "between", "into",
   "through", "during", "before", "after", "above", "below", "to", "from", "up", "down", "in",
   "out", "on", "off", "over", "under", "again", "further", "then", "once", "here", "there",
   "when", "where", "why", "how", "all", "any", "both", "each", "few", "more", "most", "other",
   "some", "such", "no", "nor", "not", "only", "own", "same", "so", "than", "too", "very", "s",
   "t", "can", "will", "just", "don", "should", "now"].map String.toList

/-- One n-gram of the store: its text and the number of times it was added. -/
structure NGram where
  ngram : GoString
  occurrences : Nat
deriving DecidableEq, Repr

/-- The value type of `map[uint32]*NGram`: one entry per key. -/
abbrev NGramMap := List (Nat × NGram)

/-- The store. `ngrams` is `none` for the nil map of a zero value; `hashes` is the order
sequence. The mutex has no counterpart: every operation below is one atomic step. -/
structure Shingles where
  n : Int
  ngrams : Option NGramMap
  hashes : List Nat
deriving DecidableEq, Repr

/-- The zero value `var shingles Shingles`. -/
def Shingles.zero : Shingles := { n := 0, ngrams := none, hashes := [] }

/-- Source function `contains`: linear search for `val`. -/
def contains : List GoString → GoString → Bool
  | [], _ => false
  | item :: rest, val => if item = val then true else contains rest val

/-- Source function `hash`: the CRC-32 checksum of the bytes of the text. -/
def hash (s : GoString) : Nat := checksumIEEE (bytes s)

/-- A value of type `float32`, as far as conversions and quotients of non-negative integers
reach: not a number, plus infinity, or the finite value `mantissa * 2 ^ exponent`. A normal
number has 2^23 ≤ mantissa < 2^24 and -149 ≤ exponent ≤ 104, a subnormal one and zero have
mantissa < 2^23 and exponent -149, so every value has one representation. -/
inductive Float32 where
  | nan
  | inf
  | finite (mantissa : Nat) (exponent : Int)
deriving DecidableEq, Repr

/-- The number of halvings that take `n` below 2, at most `fuel` of them. -/
def halvings : Nat → Nat → Nat
  | 0, _ => 0
  | fuel + 1, n => if 2 ≤ n then halvings fuel (n / 2) + 1 else 0

/-- The position of the leading bit of `n`: the largest `k` with `2 ^ k ≤ n` (0 for 0). -/
def log2Floor (n : Nat) : Nat := halvings n n

/-- The integer nearest to `n / d`, a tie going to the even one. -/
def roundHalfEven (n d : Nat) : Nat :=
  if 2 * (n % d) < d then n / d
  else if d < 2 * (n % d) then n / d + 1
  else if n / d % 2 = 0 then n / d else n / d + 1

/-- The float32 nearest to the rational `num / den`, a tie going to the even mantissa (the
rounding of IEEE 754 that conversions and arithmetic of `float32` use). The value is scaled
by 2^149, the weight of the last subnormal bit; `ulp` is the exponent of the last mantissa
bit above -149, and a mantissa that rounds up to 2^24 moves to the next exponent. -/
def roundFloat32 (num den : Nat) : Float32 :=
  let ulp : Nat := log2Floor (num * 2 ^ 149 / den) - 23
  let m : Nat := roundHalfEven (num * 2 ^ 149) (den * 2 ^ ulp)
  if m = 2 ^ 24 then
    if 253 < ulp + 1 then Float32.inf else Float32.finite (2 ^ 23) ((ulp : Int) + 1 - 149)
  else if 253 < ulp then Float32.inf else Float32.finite m ((ulp : Int) - 149)

/-- The conversion `(float32)(n)` of a non-negative integer. -/
def float32 (n : Nat) : Float32 := roundFloat32 n 1

/-- The quotient of two `float32` values that are not negative. -/
def Float32.div : Float32 → Float32 → Float32
  | .nan, _ => .nan
  | _, .nan => .nan
  | .inf, .inf => .nan
  | .inf, .finite _ _ => .inf
  | .finite _ _, .inf => .finite 0 (-149)
  | .finite ma ea, .finite mb eb =>
    if mb = 0 then (if ma = 0 then .nan else .inf)
    else roundFloat32 (ma * 2 ^ (ea - eb).toNat) (mb * 2 ^ (eb - ea).toNat)

/-- Source function `frequency`: `(float32)(count) / (float32)(total)`. Both arguments are
counts and not negative. -/
def frequency (count total : Nat) : Float32 := (float32 count).div (float32 total)

/-- The class `[^.,;\-\?\!]` of the sentence pattern. -/
def isSentenceChar (c : Char) : Bool :=
  !(c == '.' || c == ',' || c == ';' || c == '-' || c == '?' || c == '!')

/-- The class `[\w'-]` of the word pattern. -/
def isWordClassChar (c : Char) : Bool :=
  isWordChar c || c == Char.ofNat 39 || c == '-'

/-- Source function `sentences`: every match of the sentence pattern, in order. -/
def sentences (s : GoString) : List GoString :=
  findAllString isSentenceChar s

/-- The loop of `words` over the matches, `acc` being the words appended so far. -/
def wordsLoop (normalize : Bool) : List GoString → List GoString → List GoString
  | [], acc => acc
  | m :: rest, acc =>
    if normalize then
      if contains stopwords (stringsToLower m) then wordsLoop normalize rest acc
      else wordsLoop normalize rest (acc ++ [stringsToLower m])
    else wordsLoop normalize rest (acc ++ [m])

/-- Source function `words`. -/
def words (s : GoString) (normalize : Bool) : List GoString :=
  wordsLoop normalize (findAllString isWordClassChar s) []

/-- A value of type `int` after 64-bit two's complement wrap-around. -/
def wrapInt (x : Int) : Int := (x + 2 ^ 63) % 2 ^ 64 - 2 ^ 63

/-- The slice expression `a[low:high]`; `none` is the panic for bounds out of range. The
upper bound is checked against the length: the program never passes a `high` above it. -/
def sliceRange (a : List GoString) (low high : Int) : Option (List GoString) :=
  if 0 ≤ low ∧ low ≤ high ∧ high ≤ a.length then
    some ((a.drop low.toNat).take (high - low).toNat)
  else none

/-- The loop of `computeNGrams`: `count` iterations are left, the next one with index `i`;
`ngrams` holds the n-grams appended so far. -/
def computeNGramsLoop (words : List GoString) (length : Int) :
    Nat → Nat → List GoString → Option (List GoString)
  | 0, _, ngrams => some ngrams
  | count + 1, i, ngrams =>
    match sliceRange words i (wrapInt (i + length)) with
    | none => none
    | some window =>
      computeNGramsLoop words length count (i + 1) (ngrams ++ [stringsJoin window [' ']])

/-- Source function `computeNGrams`. The loop `for i := 0; i <= max; i++` runs `max + 1`
times when `max` is not negative and not at all otherwise. -/
def computeNGrams (words : List GoString) (length : Int) : Option (List GoString) :=
  let max := wrapInt (words.length - length)
  computeNGramsLoop words length (max + 1).toNat 0 []

/-- The statement `existing.occurrences = existing.occurrences + 1` on the entry of `key`. -/
def incrementAt (m : NGramMap) (key : Nat) : NGramMap :=
  m.map fun e => if e.1 = key then (e.1, { e.2 with occurrences := e.2.occurrences + 1 }) else e

/-- The body of the loop of `add`, one critical section: count one n-gram. Storing into the
nil map panics. -/
def Shingles.addOne (sh : Shingles) (ngram : GoString) : Option Shingles :=
  match sh.ngrams with
  | none => none
  | some m =>
    match m.lookup (hash ngram) with
    | some _ => some { sh with ngrams := some (incrementAt m (hash ngram)) }
    | none =>
      some { sh with
        ngrams := some (m ++ [(hash ngram, { ngram := ngram, occurrences := 1 })])
        hashes := sh.hashes ++ [hash ngram] }

/-- Source method `add`. -/
def Shingles.add : Shingles → List GoString → Option Shingles
  | sh, [] => some sh
  | sh, ngram :: rest =>
    match sh.addOne ngram with
    | none => none
    | some sh1 => Shingles.add sh1 rest

/-- Source method `Len`. -/
def Shingles.Len (sh : Shingles) : Nat := sh.hashes.length

/-- The expression `sh.ngrams[key].occurrences`; a key without entry yields a nil pointer,
whose dereference panics. -/
def Shingles.occurrencesOf (sh : Shingles) (key : Nat) : Option Nat :=
  match sh.ngrams with
  | none => none
  | some m => (m.lookup key).map NGram.occurrences

/-- Source method `Less`; an index out of range panics. -/
def Shingles.Less (sh : Shingles) (i j : Nat) : Option Bool :=
  match sh.hashes[i]?, sh.hashes[j]? with
  | some hi, some hj =>
    match sh.occurrencesOf hi, sh.occurrencesOf hj with
    | some a, some b => some (decide (a < b))
    | _, _ => none
  | _, _ => none

/-- Source method `Swap`; an index out of range panics. -/
def Shingles.Swap (sh : Shingles) (i j : Nat) : Option Shingles :=
  match sh.hashes[i]?, sh.hashes[j]? with
  | some hi, some hj => some { sh with hashes := (sh.hashes.set i hj).set j hi }
  | _, _ => none

/-- Source method `Initialize`. -/
def Shingles.Initialize (sh : Shingles) (n : Int) : Shingles :=
  { sh with n := n, ngrams := some [] }

/-- Source method `Count`. -/
def Shingles.Count (sh : Shingles) : Nat := sh.hashes.length

/-- The loop of `Incorporate` over the sentences. -/
def Shingles.incorporateLoop (normalize : Bool) : Shingles → List GoString → Option Shingles
  | sh, [] => some sh
  | sh, sentence :: rest =>
    match computeNGrams (words sentence normalize) sh.n with
    | none => none
    | some ngrams =>
      match sh.add ngrams with
      | none => none
      | some sh1 => Shingles.incorporateLoop normalize sh1 rest

/-- Source method `Incorporate`. -/
def Shingles.Incorporate (sh : Shingles) (corpora : GoString) (normalize : Bool) :
    Option Shingles :=
  Shingles.incorporateLoop normalize sh (sentences corpora)

/-- One printed line of `Walk` and `SortedWalk`. -/
structure Record where
  hash : Nat
  ngram : GoString
  count : Nat
  frequency : Float32
deriving DecidableEq, Repr

/-- Source method `Walk`: one record per entry of the map. -/
def Shingles.Walk (sh : Shingles) : List Record :=
  (sh.ngrams.getD []).map fun e =>
    { hash := e.1, ngram := e.2.ngram, count := e.2.occurrences,
      frequency := frequency e.2.occurrences sh.Count }

/-- The method `Less` of `sort.Reverse(sh)`. -/
def Shingles.reverseLess (sh : Shingles) (i j : Nat) : Option Bool := sh.Less j i

/-- The inner loop of the insertion sort:
`for j := i; j > 0 && data.Less(j, j-1); j-- { data.Swap(j, j-1) }`. -/
def insertionInner : Shingles → Nat → Option Shingles
  | data, 0 => some data
  | data, j + 1 =>
    match data.reverseLess (j + 1) j with
    | none => none
    | some false => some data
    | some true =>
      match data.Swap (j + 1) j with
      | none => none
      | some data1 => insertionInner data1 j

/-- The outer loop of the insertion sort, `count` iterations from index `i` on. -/
def insertionOuter : Shingles → Nat → Nat → Option Shingles
  | data, _, 0 => some data
  | data, i, count + 1 =>
    match insertionInner data i with
    | none => none
    | some data1 => insertionOuter data1 (i + 1) count

/-- The call `sort.Sort(sort.Reverse(sh))`. The library promises a sort that is not stable
and that reaches the data through `Len`, `Less` and `Swap` only; the model is the insertion
sort the library runs on short inputs: `for i := 1; i < n; i++ { ... }`. -/
def sortReverse (sh : Shingles) : Option Shingles :=
  insertionOuter sh 1 (sh.Len - 1)

/-- The printing loop of `SortedWalk` over the order sequence; a key without entry panics. -/
def Shingles.walkHashes (sh : Shingles) : List Nat → Option (List Record)
  | [] => some []
  | key :: rest =>
    match sh.ngrams with
    | none => none
    | some m =>
      match m.lookup key, Shingles.walkHashes sh rest with
      | some g, some records =>
        some ({ hash := key, ngram := g.ngram, count := g.occurrences,
                frequency := frequency g.occurrences sh.Count } :: records)
      | _, _ => none

/-- Source method `SortedWalk`: the store after the sort, and the records printed. -/
def Shingles.SortedWalk (sh : Shingles) : Option (Shingles × List Record) :=
  match sortReverse sh with
  | none => none
  | some sh1 =>
    match sh1.walkHashes sh1.hashes with
    | none => none
    | some records => some (sh1, records)

/-! ## Vocabulary of the properties -/

/-- A sequence of `Incorporate` calls on one store, each with its corpus and its normalize
flag, run one after the other. -/
def Shingles.incorporateAll : Shingles → List (GoString × Bool) → Option Shingles
  | sh, [] => some sh
  | sh, call :: rest =>
    match sh.Incorporate call.1 call.2 with
    | none => none
    | some sh1 => Shingles.incorporateAll sh1 rest

/-- The n-gram strings one `Incorporate` call generates from a corpus, sentence after
sentence, in the order in which they are handed to `add`. -/
def generated (n : Int) (corpora : GoString) (normalize : Bool) : List GoString :=
  (sentences corpora).flatMap fun sentence =>
    (computeNGrams (words sentence normalize) n).getD []

/-- The n-gram strings a sequence of `Incorporate` calls generates, in generation order. -/
def generatedAll (n : Int) (calls : List (GoString × Bool)) : List GoString :=
  calls.flatMap fun call => generated n call.1 call.2

/-- A sequence of keys with every occurrence of a key after its first removed. -/
def firstOccurrences : List Nat → List Nat
  | [] => []
  | key :: rest => key :: (firstOccurrences rest).filter fun k => k != key

/-- The entry stored under a key: the expression `sh.ngrams[key]`. -/
def Shingles.entryOf (sh : Shingles) (key : Nat) : Option NGram :=
  match sh.ngrams with
  | none => none
  | some m => m.lookup key

/-- The keys of the map of the store. -/
def Shingles.keys (sh : Shingles) : List Nat := (sh.ngrams.getD []).map Prod.fst

/-- The sum of the occurrence counters of a map. -/
def occurrencesSum (m : NGramMap) : Nat := (m.map fun e => e.2.occurrences).sum

/-- The store is in step with itself: the map exists, and the order sequence lists every key
of the map once and nothing else. -/
def Shingles.WellFormed (sh : Shingles) : Prop :=
  sh.ngrams ≠ none ∧ sh.keys.Perm sh.hashes ∧ sh.hashes.Nodup

/-- The occurrence counter of a key, 0 for a key without entry. -/
def Shingles.countOf (sh : Shingles) (key : Nat) : Nat := (sh.occurrencesOf key).getD 0

/-- The records of the keys of a list that have an entry, in the order of the list. -/
def Shingles.recordsOf (sh : Shingles) (keys : List Nat) : List Record :=
  keys.filterMap fun key =>
    (sh.entryOf key).map fun g =>
      { hash := key, ngram := g.ngram, count := g.occurrences,
        frequency := frequency g.occurrences sh.Count }

/-- The operations that read the store. -/
inductive ReadOp where
  | count
  | walk
  | sortedWalk
deriving DecidableEq, Repr

/-- The store after one reading operation; `SortedWalk` may panic. -/
def Shingles.read (sh : Shingles) : ReadOp → Option Shingles
  | .count => some sh
  | .walk => some sh
  | .sortedWalk => sh.SortedWalk.map Prod.fst

/-- The store after a sequence of reading operations. -/
def Shingles.readAll : Shingles → List ReadOp → Option Shingles
  | sh, [] => some sh
  | sh, op :: rest =>
    match sh.read op with
    | none => none
    | some sh1 => Shingles.readAll sh1 rest

/-- The test corpus `linearText` of `shingles_test.go`. -/
def linearText : GoString := "A B C D E F G A B C H I J K L M".toList

/-- A unigram store that holds the one string "plumless", whose checksum "buckeroo" shares. -/
def plumlessStore : Shingles :=
  { n := 1
    ngrams := some [(1306201125, { ngram := "plumless".toList, occurrences := 1 })]
    hashes := [1306201125] }

/-- The store after `Initialize(TRIGRAM)` and `Incorporate("A B C D, B C D", false)`. -/
def bcdStore : Shingles :=
  { n := 3
    ngrams := some [(181159164, { ngram := "A B C".toList, occurrences := 1 }),
      (3536503224, { ngram := "B C D".toList, occurrences := 2 })]
    hashes := [181159164, 3536503224] }

/-- The store `bcdStore` after `SortedWalk()`. -/
def bcdSorted : Shingles :=
  { n := 3
    ngrams := some [(181159164, { ngram := "A B C".toList, occurrences := 1 }),
      (3536503224, { ngram := "B C D".toList, occurrences := 2 })]
    hashes := [3536503224, 181159164] }

/-- The schedules of concurrent callers: `Interleaving qs l` says that `l` runs the steps of
the queues `qs`, each step taken from the front of one queue, so that every queue keeps its
own order. -/
inductive Interleaving : List (List GoString) → List GoString → Prop
  | done (qs : List (List GoString)) : (∀ q ∈ qs, q = []) → Interleaving qs []
  | step (before after : List (List GoString)) (x : GoString) (q l : List GoString) :
      Interleaving (before ++ q :: after) l →
      Interleaving (before ++ (x :: q) :: after) (x :: l)

/-! ## Vocabulary of the tokenizer properties -/

/-- A run of runes without the runes before its first and after its last word rune (letter,
digit or underscore); a run without word runes becomes empty. -/
def trimNonWord (run : GoString) : GoString :=
  (run.dropWhile fun c => !isWordChar c).rdropWhile fun c => !isWordChar c

/-- The maximal non-empty runs of class runes in a text, from left to right. -/
def maximalRuns (cls : Char → Bool) (s : GoString) : List GoString :=
  (s.splitOnP fun c => !cls c).filter fun run => !run.isEmpty

/-- The maximal runs of class runes in a text, each cut back to its first and last word
rune; runs without a word rune are left out. -/
def trimmedRuns (cls : Char → Bool) (s : GoString) : List GoString :=
  ((maximalRuns cls s).map trimNonWord).filter fun run => !run.isEmpty

/-! ## Vocabulary of the reachable states -/

/-- A call on the store: `Incorporate` with its arguments, or one of the reading
operations. -/
inductive Call where
  | incorporate (corpora : GoString) (normalize : Bool)
  | read (op : ReadOp)

/-- The store after one call; `none` when the call panics. -/
def Shingles.call (sh : Shingles) : Call → Option Shingles
  | .incorporate corpora normalize => sh.Incorporate corpora normalize
  | .read op => sh.read op

/-- The store after a sequence of calls. -/
def Shingles.callAll : Shingles → List Call → Option Shingles
  | sh, [] => some sh
  | sh, c :: rest =>
    match sh.call c with
    | none => none
    | some sh1 => Shingles.callAll sh1 rest

/-- Every entry of the map has an occurrence counter of at least 1. -/
def Shingles.Positive (sh : Shingles) : Prop :=
  ∀ k g, sh.entryOf k = some g → 1 ≤ g.occurrences

/-- The second store holds every key of the first with the same text and a counter that is
not smaller, and its `Count()` is not smaller. -/
def Shingles.GrowsTo (sh sh1 : Shingles) : Prop :=
  (∀ k g, sh.entryOf k = some g →
    ∃ g1, sh1.entryOf k = some g1 ∧ g1.ngram = g.ngram ∧ g.occurrences ≤ g1.occurrences) ∧
  sh.Count ≤ sh1.Count

/-- The store `bcdStore` after `Incorporate("B C D", false)`. -/
def bcdGrown : Shingles :=
  { n := 3
    ngrams := some [(181159164, { ngram := "A B C".toList, occurrences := 1 }),
      (3536503224, { ngram := "B C D".toList, occurrences := 3 })]
    hashes := [181159164, 3536503224] }

/-- The rational number a finite `float32` stands for (0 for the other two). -/
def Float32.value : Float32 → ℚ
  | .finite m e => (m : ℚ) * 2 ^ e
  | _ => 0

/-! ## Arithmetic of `int` -/

theorem wrapInt_of_range (x : Int) (h1 : -(2 ^ 63) ≤ x) (h2 : x < 2 ^ 63) : wrapInt x = x := by
  unfold wrapInt
  omega

/-! ## The window generator -/

/-- The window of `n` words that starts at index `i`, joined with single spaces. -/
theorem sliceRange_window (ws : List GoString) (i n : Nat) (h : i + n ≤ ws.length) :
    sliceRange ws (i : Int) ((i : Int) + (n : Int)) = some ((ws.drop i).take n) := by
  unfold sliceRange
  have h1 : (0 : Int) ≤ (i : Int) ∧ (i : Int) ≤ (i : Int) + (n : Int) ∧
      (i : Int) + (n : Int) ≤ (ws.length : Int) := by omega
  rw [if_pos h1]
  have h2 : ((i : Int) + (n : Int) - (i : Int)).toNat = n := by omega
  rw [h2, Int.toNat_ofNat]

theorem computeNGramsLoop_eq (ws : List GoString) (n : Nat) (hlen : ws.length < 2 ^ 63) :
    ∀ (count i : Nat) (acc : List GoString), count = 0 ∨ i + count + n ≤ ws.length + 1 →
      computeNGramsLoop ws (n : Int) count i acc =
        some (acc ++ (List.range' i count).map
          fun j => stringsJoin ((ws.drop j).take n) [' ']) := by
  intro count
  induction count with
  | zero => intro i acc _; simp [computeNGramsLoop]
  | succ c ih =>
    intro i acc h
    have h : i + (c + 1) + n ≤ ws.length + 1 := by omega
    have hw : wrapInt ((i : Int) + (n : Int)) = (i : Int) + (n : Int) :=
      wrapInt_of_range _ (by omega) (by omega)
    rw [computeNGramsLoop, hw, sliceRange_window ws i n (by omega)]
    simp only
    rw [ih (i + 1) _ (by omega)]
    simp [List.range'_succ]

theorem computeNGrams_eq (ws : List GoString) (n : Nat) (hlen : ws.length < 2 ^ 63)
    (hn : n < 2 ^ 63) :
    computeNGrams ws (n : Int) =
      some ((List.range' 0 (ws.length + 1 - n)).map
        fun j => stringsJoin ((ws.drop j).take n) [' ']) := by
  have hw : wrapInt ((ws.length : Int) - (n : Int)) = (ws.length : Int) - (n : Int) :=
    wrapInt_of_range _ (by omega) (by omega)
  have hc : ((ws.length : Int) - (n : Int) + 1).toNat = ws.length + 1 - n := by omega
  simp only [computeNGrams, hw, hc]
  rw [computeNGramsLoop_eq ws n hlen (ws.length + 1 - n) 0 [] (by omega)]
  simp

/-- C1. For a word list of length L and an n-gram length n with 1 ≤ n ≤ L, `computeNGrams`
returns exactly L - n + 1 strings, and the string at index i (0 ≤ i ≤ L - n) is the n words
`words[i], ..., words[i+n-1]` joined with a single space: the output follows the word order
and nothing is removed. -/
theorem computeNGrams_windows (ws : List GoString) (n : Nat) (hlen : ws.length < 2 ^ 63)
    (h1 : 1 ≤ n) (hn : n ≤ ws.length) :
    ∃ ngrams, computeNGrams ws (n : Int) = some ngrams ∧
      ngrams.length = ws.length - n + 1 ∧
      ∀ i, i ≤ ws.length - n →
        ((ws.drop i).take n).length = n ∧
        (∀ j, j < n → ((ws.drop i).take n)[j]? = ws[i + j]?) ∧
        ngrams[i]? = some (List.intercalate [' '] ((ws.drop i).take n)) := by
  refine ⟨_, computeNGrams_eq ws n hlen (by omega), ?_, ?_⟩
  · simp; omega
  · intro i hi
    refine ⟨?_, ?_, ?_⟩
    · simp; omega
    · intro j hj
      simp [List.getElem?_take, hj]
    · have : i < ws.length + 1 - n := by omega
      simp [List.getElem?_map, List.getElem?_range', this, stringsJoin]

theorem computeNGrams_windows_witness :
    ∃ ngrams, computeNGrams ["A".toList, "B".toList, "C".toList, "D".toList] ((3 : Nat) : Int)
        = some ngrams ∧
      ngrams.length = ["A".toList, "B".toList, "C".toList, "D".toList].length - 3 + 1 ∧
      ∀ i, i ≤ ["A".toList, "B".toList, "C".toList, "D".toList].length - 3 →
        ((["A".toList, "B".toList, "C".toList, "D".toList].drop i).take 3).length = 3 ∧
        (∀ j, j < 3 →
          ((["A".toList, "B".toList, "C".toList, "D".toList].drop i).take 3)[j]?
            = ["A".toList, "B".toList, "C".toList, "D".toList][i + j]?) ∧
        ngrams[i]? = some (List.intercalate [' ']
          ((["A".toList, "B".toList, "C".toList, "D".toList].drop i).take 3)) :=
  computeNGrams_windows _ 3 (by decide) (by decide) (by decide)

/-! ## The map -/

theorem incrementAt_cons (a : Nat) (g : NGram) (m : NGramMap) (key : Nat) :
    incrementAt ((a, g) :: m) key =
      (a, if a = key then { g with occurrences := g.occurrences + 1 } else g) ::
        incrementAt m key := by
  unfold incrementAt
  by_cases h : a = key <;> simp [h]

theorem lookup_cons_eq (k : Nat) (g : NGram) (m : NGramMap) :
    List.lookup k ((k, g) :: m) = some g := by
  simp [List.lookup]

theorem lookup_cons_ne (k a : Nat) (g : NGram) (m : NGramMap) (h : k ≠ a) :
    List.lookup k ((a, g) :: m) = List.lookup k m := by
  have hb : (k == a) = false := by simpa using h
  simp [List.lookup, hb]

theorem lookup_incrementAt (m : NGramMap) (key k : Nat) :
    (incrementAt m key).lookup k =
      (m.lookup k).map fun g =>
        if k = key then { g with occurrences := g.occurrences + 1 } else g := by
  induction m with
  | nil => simp [incrementAt]
  | cons e m ih =>
    obtain ⟨a, g⟩ := e
    rw [incrementAt_cons]
    by_cases hk : k = a
    · subst hk
      rw [lookup_cons_eq, lookup_cons_eq]
      rfl
    · rw [lookup_cons_ne _ _ _ _ hk, lookup_cons_ne _ _ _ _ hk]
      exact ih

theorem lookup_append_entry (m : NGramMap) (key k : Nat) (g : NGram) :
    (m ++ [(key, g)]).lookup k =
      match m.lookup k with
      | some v => some v
      | none => if k = key then some g else none := by
  induction m with
  | nil =>
    by_cases hk : k = key
    · subst hk; simp [lookup_cons_eq]
    · simp [lookup_cons_ne _ _ _ _ hk, hk]
  | cons e m ih =>
    obtain ⟨a, v⟩ := e
    by_cases hk : k = a
    · subst hk; simp [lookup_cons_eq]
    · simp only [List.cons_append, lookup_cons_ne _ _ _ _ hk]
      exact ih

theorem keys_incrementAt (m : NGramMap) (key : Nat) :
    (incrementAt m key).map Prod.fst = m.map Prod.fst := by
  unfold incrementAt
  rw [List.map_map]
  apply List.map_congr_left
  intro e _
  by_cases h : e.1 = key <;> simp [h]

theorem lookup_eq_none_iff_keys (m : NGramMap) (k : Nat) :
    m.lookup k = none ↔ k ∉ m.map Prod.fst := by
  induction m with
  | nil => simp
  | cons e m ih =>
    obtain ⟨a, v⟩ := e
    by_cases hk : k = a
    · subst hk; simp [lookup_cons_eq]
    · simp only [lookup_cons_ne _ _ _ _ hk, List.map_cons, List.mem_cons, hk, false_or]
      exact ih

/-! ## One addition -/

theorem occurrencesOf_eq_entryOf (sh : Shingles) (k : Nat) :
    sh.occurrencesOf k = (sh.entryOf k).map NGram.occurrences := by
  unfold Shingles.occurrencesOf Shingles.entryOf
  cases sh.ngrams <;> rfl

theorem entryOf_eq_none_iff (sh : Shingles) (k : Nat) (h : sh.ngrams ≠ none) :
    sh.entryOf k = none ↔ k ∉ sh.keys := by
  unfold Shingles.entryOf Shingles.keys
  cases hm : sh.ngrams with
  | none => exact absurd hm h
  | some m => simpa using lookup_eq_none_iff_keys m k

theorem addOne_nil (sh : Shingles) (x : GoString) (h : sh.ngrams = none) :
    sh.addOne x = none := by
  unfold Shingles.addOne
  rw [h]

theorem addOne_present (sh : Shingles) (x : GoString) (m : NGramMap) (g : NGram)
    (hm : sh.ngrams = some m) (hl : m.lookup (hash x) = some g) :
    sh.addOne x = some { sh with ngrams := some (incrementAt m (hash x)) } := by
  unfold Shingles.addOne
  rw [hm]
  simp only [hl]

theorem addOne_absent (sh : Shingles) (x : GoString) (m : NGramMap)
    (hm : sh.ngrams = some m) (hl : m.lookup (hash x) = none) :
    sh.addOne x = some { sh with
      ngrams := some (m ++ [(hash x, { ngram := x, occurrences := 1 })])
      hashes := sh.hashes ++ [hash x] } := by
  unfold Shingles.addOne
  rw [hm]
  simp only [hl]

/-- What one addition does to a store whose map exists. -/
theorem addOne_step (sh : Shingles) (x : GoString) (h : sh.ngrams ≠ none) :
    ∃ sh1, sh.addOne x = some sh1 ∧ sh1.n = sh.n ∧ sh1.ngrams ≠ none ∧
      (∀ k, sh1.entryOf k =
        if k = hash x then
          some (match sh.entryOf k with
            | some g => { g with occurrences := g.occurrences + 1 }
            | none => { ngram := x, occurrences := 1 })
        else sh.entryOf k) ∧
      sh1.hashes = (if sh.entryOf (hash x) = none then sh.hashes ++ [hash x] else sh.hashes) ∧
      sh1.keys = (if sh.entryOf (hash x) = none then sh.keys ++ [hash x] else sh.keys) := by
  obtain ⟨n, ng, hs⟩ := sh
  cases ng with
  | none => exact absurd rfl h
  | some m =>
    cases hl : m.lookup (hash x) with
    | some g =>
      refine ⟨_, addOne_present _ x m g rfl hl, rfl, by simp, ?_, ?_, ?_⟩
      · intro k
        simp only [Shingles.entryOf, lookup_incrementAt]
        by_cases hkx : k = hash x
        · subst hkx; simp [hl]
        · simp [hkx]
      · simp [Shingles.entryOf, hl]
      · simp [Shingles.entryOf, hl, Shingles.keys, keys_incrementAt]
    | none =>
      refine ⟨_, addOne_absent _ x m rfl hl, rfl, by simp, ?_, ?_, ?_⟩
      · intro k
        simp only [Shingles.entryOf, lookup_append_entry]
        by_cases hkx : k = hash x
        · subst hkx; simp [hl]
        · simp only [hkx, if_false]
          cases m.lookup k <;> rfl
      · simp [Shingles.entryOf, hl]
      · simp [Shingles.entryOf, hl, Shingles.keys]

/-! ## The loop of `add` -/

theorem add_nil_map (sh : Shingles) (x : GoString) (l : List GoString) (h : sh.ngrams = none) :
    sh.add (x :: l) = none := by
  rw [Shingles.add, addOne_nil sh x h]

theorem add_cons_of (sh sh1 : Shingles) (x : GoString) (l : List GoString)
    (h : sh.addOne x = some sh1) : sh.add (x :: l) = sh1.add l := by
  rw [Shingles.add, h]

theorem add_total (l : List GoString) :
    ∀ sh : Shingles, sh.ngrams ≠ none →
      ∃ sh1, sh.add l = some sh1 ∧ sh1.n = sh.n ∧ sh1.ngrams ≠ none := by
  induction l with
  | nil => intro sh h; exact ⟨sh, rfl, rfl, h⟩
  | cons x l ih =>
    intro sh h
    obtain ⟨sh1, h1, hn, hm, -⟩ := addOne_step sh x h
    obtain ⟨sh2, h2, hn2, hm2⟩ := ih sh1 hm
    exact ⟨sh2, by rw [add_cons_of sh sh1 x l h1, h2], by rw [hn2, hn], hm2⟩

theorem add_append (l1 l2 : List GoString) :
    ∀ sh : Shingles, sh.add (l1 ++ l2) = (sh.add l1).bind fun sh1 => sh1.add l2 := by
  induction l1 with
  | nil => intro sh; simp [Shingles.add]
  | cons x l1 ih =>
    intro sh
    cases h : sh.addOne x with
    | none => simp [Shingles.add, h]
    | some sh1 => simp [Shingles.add, h, ih]

/-- The occurrence counter of a key after a run of additions: its old value plus the number
of added strings with that key; a key neither stored nor added stays absent. -/
theorem add_occurrencesOf (l : List GoString) :
    ∀ sh sh2 : Shingles, sh.add l = some sh2 → ∀ k,
      sh2.occurrencesOf k =
        match sh.occurrencesOf k with
        | some c => some (c + (l.map hash).count k)
        | none => if k ∈ l.map hash then some ((l.map hash).count k) else none := by
  induction l with
  | nil =>
    intro sh sh2 h k
    simp only [Shingles.add, Option.some.injEq] at h
    subst h
    cases sh.occurrencesOf k <;> simp
  | cons x l ih =>
    intro sh sh2 h k
    cases hm : sh.ngrams with
    | none => rw [add_nil_map sh x l hm] at h; exact absurd h (by simp)
    | some m =>
      have hne : sh.ngrams ≠ none := by simp [hm]
      obtain ⟨sh1, h1, -, -, h4, -, -⟩ := addOne_step sh x hne
      rw [add_cons_of sh sh1 x l h1] at h
      rw [ih sh1 sh2 h k, occurrencesOf_eq_entryOf sh1, h4 k, occurrencesOf_eq_entryOf sh]
      by_cases hkx : k = hash x
      · subst hkx
        cases sh.entryOf (hash x) with
        | none => simp; omega
        | some g => simp; omega
      · have hkx2 : ¬ hash x = k := fun e => hkx e.symm
        cases sh.entryOf k with
        | none => simp [hkx, hkx2, List.count_cons]
        | some g => simp [hkx, hkx2, List.count_cons]

theorem filter_filter_ne (l : List Nat) (key : Nat) (p : Nat → Bool) (hp : p key = false) :
    (l.filter fun k => k != key).filter p = l.filter p := by
  rw [List.filter_filter]
  apply List.filter_congr
  intro k _
  by_cases hk : k = key
  · subst hk; simp [hp]
  · simp [hk]

/-- The order sequence and the keys of the map after a run of additions: the keys not yet
stored are appended in the order of their first occurrence. -/
theorem add_hashes_keys (l : List GoString) :
    ∀ sh sh2 : Shingles, sh.add l = some sh2 →
      sh2.hashes = sh.hashes ++
          (firstOccurrences (l.map hash)).filter (fun k => (sh.entryOf k).isNone) ∧
      sh2.keys = sh.keys ++
          (firstOccurrences (l.map hash)).filter (fun k => (sh.entryOf k).isNone) := by
  induction l with
  | nil =>
    intro sh sh2 h
    simp only [Shingles.add, Option.some.injEq] at h
    subst h
    simp [firstOccurrences]
  | cons x l ih =>
    intro sh sh2 h
    cases hm : sh.ngrams with
    | none => rw [add_nil_map sh x l hm] at h; exact absurd h (by simp)
    | some m =>
      have hne : sh.ngrams ≠ none := by simp [hm]
      obtain ⟨sh1, h1, -, -, h4, h5, h6⟩ := addOne_step sh x hne
      rw [add_cons_of sh sh1 x l h1] at h
      obtain ⟨ih1, ih2⟩ := ih sh1 sh2 h
      have hf : (fun k => (sh1.entryOf k).isNone) =
          fun k => (k != hash x) && (sh.entryOf k).isNone := by
        funext k
        rw [h4 k]
        by_cases hkx : k = hash x
        · simp [hkx]
        · simp [hkx]
      have hff : (firstOccurrences (l.map hash)).filter (fun k => (sh1.entryOf k).isNone) =
          ((firstOccurrences (l.map hash)).filter fun k => k != hash x).filter
            (fun k => (sh.entryOf k).isNone) := by
        rw [hf, List.filter_filter]
        apply List.filter_congr
        intro k _
        exact Bool.and_comm _ _
      rw [ih1, ih2, h5, h6, hff]
      simp only [List.map_cons, firstOccurrences]
      cases he : sh.entryOf (hash x) with
      | none => simp [List.filter_cons, he]
      | some g => simp [List.filter_cons, he]

/-! ## First occurrences -/

theorem mem_firstOccurrences (l : List Nat) (k : Nat) : k ∈ firstOccurrences l ↔ k ∈ l := by
  induction l with
  | nil => simp [firstOccurrences]
  | cons a l ih =>
    simp only [firstOccurrences, List.mem_cons, List.mem_filter, ih]
    by_cases h : k = a <;> simp [h]

theorem nodup_firstOccurrences (l : List Nat) : (firstOccurrences l).Nodup := by
  induction l with
  | nil => simp [firstOccurrences]
  | cons a l ih =>
    simp only [firstOccurrences, List.nodup_cons, List.mem_filter]
    exact ⟨by simp, ih.filter _⟩

theorem length_firstOccurrences (l : List Nat) :
    (firstOccurrences l).length = l.toFinset.card := by
  rw [← List.toFinset_card_of_nodup (nodup_firstOccurrences l)]
  congr 1
  ext k
  simp [mem_firstOccurrences]

/-! ## The sum of the counters -/

theorem occurrencesSum_incrementAt (m : NGramMap) (key : Nat) :
    occurrencesSum (incrementAt m key) = occurrencesSum m + (m.map Prod.fst).count key := by
  induction m with
  | nil => simp [occurrencesSum, incrementAt]
  | cons e m ih =>
    obtain ⟨a, g⟩ := e
    rw [incrementAt_cons]
    unfold occurrencesSum at ih ⊢
    simp only [List.map_cons, List.sum_cons, ih, List.count_cons]
    by_cases h : a = key
    · simp [h]; omega
    · simp [h]; omega

theorem walk_count_sum (sh : Shingles) :
    (sh.Walk.map Record.count).sum = occurrencesSum (sh.ngrams.getD []) := by
  simp [Shingles.Walk, occurrencesSum, List.map_map, Function.comp_def]

theorem addOne_occurrencesSum (sh sh1 : Shingles) (x : GoString) (h : sh.addOne x = some sh1)
    (hnd : sh.keys.Nodup) :
    occurrencesSum (sh1.ngrams.getD []) = occurrencesSum (sh.ngrams.getD []) + 1 := by
  obtain ⟨n, ng, hs⟩ := sh
  cases ng with
  | none => rw [addOne_nil _ x rfl] at h; exact absurd h (by simp)
  | some m =>
    cases hl : m.lookup (hash x) with
    | some g =>
      rw [addOne_present _ x m g rfl hl] at h
      simp only [Option.some.injEq] at h
      subst h
      simp only [Option.getD_some, occurrencesSum_incrementAt]
      have hmem : hash x ∈ m.map Prod.fst := by
        by_contra hc
        rw [(lookup_eq_none_iff_keys m (hash x)).mpr hc] at hl
        exact absurd hl (by simp)
      have hnd2 : (m.map Prod.fst).Nodup := by simpa [Shingles.keys] using hnd
      rw [List.count_eq_one_of_mem hnd2 hmem]
    | none =>
      rw [addOne_absent _ x m rfl hl] at h
      simp only [Option.some.injEq] at h
      subst h
      simp [occurrencesSum]

/-! ## Well-formed stores -/

theorem addOne_wellFormed (sh sh1 : Shingles) (x : GoString) (h : sh.addOne x = some sh1)
    (hw : sh.WellFormed) : sh1.WellFormed := by
  obtain ⟨hne, hperm, hnd⟩ := hw
  obtain ⟨sh2, h2, -, hm, -, hh, hk⟩ := addOne_step sh x hne
  rw [h] at h2
  simp only [Option.some.injEq] at h2
  subst h2
  refine ⟨hm, ?_, ?_⟩
  · rw [hh, hk]
    split
    · exact hperm.append_right _
    · exact hperm
  · rw [hh]
    split
    · rename_i he
      have hnotin : hash x ∉ sh.hashes := by
        intro hc
        exact (entryOf_eq_none_iff sh (hash x) hne).mp he (hperm.mem_iff.mpr hc)
      exact List.Nodup.append hnd (by simp) (by simpa using hnotin)
    · exact hnd

theorem add_wellFormed (l : List GoString) :
    ∀ sh sh2 : Shingles, sh.add l = some sh2 → sh.WellFormed → sh2.WellFormed := by
  induction l with
  | nil =>
    intro sh sh2 h hw
    simp only [Shingles.add, Option.some.injEq] at h
    exact h ▸ hw
  | cons x l ih =>
    intro sh sh2 h hw
    obtain ⟨sh1, h1, -⟩ := addOne_step sh x hw.1
    rw [add_cons_of sh sh1 x l h1] at h
    exact ih sh1 sh2 h (addOne_wellFormed sh sh1 x h1 hw)

theorem keys_nodup_of_wellFormed (sh : Shingles) (hw : sh.WellFormed) : sh.keys.Nodup :=
  hw.2.1.nodup_iff.mpr hw.2.2

theorem add_occurrencesSum (l : List GoString) :
    ∀ sh sh2 : Shingles, sh.add l = some sh2 → sh.WellFormed →
      occurrencesSum (sh2.ngrams.getD []) = occurrencesSum (sh.ngrams.getD []) + l.length := by
  induction l with
  | nil =>
    intro sh sh2 h _
    simp only [Shingles.add, Option.some.injEq] at h
    subst h
    simp
  | cons x l ih =>
    intro sh sh2 h hw
    obtain ⟨sh1, h1, -⟩ := addOne_step sh x hw.1
    rw [add_cons_of sh sh1 x l h1] at h
    rw [ih sh1 sh2 h (addOne_wellFormed sh sh1 x h1 hw),
      addOne_occurrencesSum sh sh1 x h1 (keys_nodup_of_wellFormed sh hw)]
    simp only [List.length_cons]
    omega

theorem fresh_wellFormed (n : Int) : (Shingles.zero.Initialize n).WellFormed := by
  refine ⟨by simp [Shingles.Initialize], ?_, ?_⟩ <;>
    simp [Shingles.Initialize, Shingles.zero, Shingles.keys]

/-! ## Sizes of the tokenizer output -/

theorem findAllFrom_length_le (cls : Char → Bool) (l : List Char) :
    ∀ (before : Option Char) (skip : Nat), (findAllFrom cls before l skip).length ≤ l.length := by
  induction l with
  | nil => intro before skip; simp [findAllFrom]
  | cons c cs ih =>
    intro before skip
    cases skip with
    | succ k =>
      rw [findAllFrom]
      exact Nat.le_succ_of_le (ih _ _)
    | zero =>
      rw [findAllFrom]
      cases matchAt cls before (c :: cs) with
      | none => exact Nat.le_succ_of_le (ih _ _)
      | some len => simpa using ih (some c) (len - 1)

theorem findAllFrom_mem_length_le (cls : Char → Bool) (l : List Char) :
    ∀ (before : Option Char) (skip : Nat), ∀ x ∈ findAllFrom cls before l skip,
      x.length ≤ l.length := by
  induction l with
  | nil => intro before skip x hx; simp [findAllFrom] at hx
  | cons c cs ih =>
    intro before skip x hx
    cases skip with
    | succ k =>
      rw [findAllFrom] at hx
      exact Nat.le_succ_of_le (ih _ _ x hx)
    | zero =>
      rw [findAllFrom] at hx
      cases hm : matchAt cls before (c :: cs) with
      | none =>
        rw [hm] at hx
        exact Nat.le_succ_of_le (ih _ _ x hx)
      | some len =>
        rw [hm] at hx
        simp only [List.mem_cons] at hx
        rcases hx with hx | hx
        · subst hx
          rw [List.length_take]
          exact Nat.min_le_right _ _
        · exact Nat.le_succ_of_le (ih _ _ x hx)

theorem wordsLoop_length_le (normalize : Bool) (ms : List GoString) :
    ∀ acc : List GoString, (wordsLoop normalize ms acc).length ≤ acc.length + ms.length := by
  induction ms with
  | nil => intro acc; simp [wordsLoop]
  | cons m ms ih =>
    intro acc
    rw [wordsLoop]
    split
    · split
      · have := ih acc
        simp only [List.length_cons]
        omega
      · have := ih (acc ++ [stringsToLower m])
        simp only [List.length_append, List.length_cons, List.length_nil] at this ⊢
        omega
    · have := ih (acc ++ [m])
      simp only [List.length_append, List.length_cons, List.length_nil] at this ⊢
      omega

theorem words_length_le (s : GoString) (normalize : Bool) :
    (words s normalize).length ≤ s.length := by
  unfold words findAllString
  have h1 := wordsLoop_length_le normalize (findAllFrom isWordClassChar none s 0) []
  have h2 := findAllFrom_length_le isWordClassChar s none 0
  simp only [List.length_nil] at h1
  omega

theorem sentences_mem_length_le (corpora s : GoString) (h : s ∈ sentences corpora) :
    s.length ≤ corpora.length :=
  findAllFrom_mem_length_le isSentenceChar corpora none 0 s h

/-! ## `Incorporate` as a run of additions -/

theorem addOne_n (sh sh1 : Shingles) (x : GoString) (h : sh.addOne x = some sh1) :
    sh1.n = sh.n := by
  cases hm : sh.ngrams with
  | none => rw [addOne_nil sh x hm] at h; exact absurd h (by simp)
  | some m =>
    obtain ⟨sh2, h2, hn, -⟩ := addOne_step sh x (by simp [hm])
    rw [h] at h2
    simp only [Option.some.injEq] at h2
    exact h2 ▸ hn

theorem add_n (l : List GoString) :
    ∀ sh sh2 : Shingles, sh.add l = some sh2 → sh2.n = sh.n := by
  induction l with
  | nil =>
    intro sh sh2 h
    simp only [Shingles.add, Option.some.injEq] at h
    rw [h]
  | cons x l ih =>
    intro sh sh2 h
    cases h1 : sh.addOne x with
    | none => simp [Shingles.add, h1] at h
    | some sh1 =>
      rw [add_cons_of sh sh1 x l h1] at h
      rw [ih sh1 sh2 h, addOne_n sh sh1 x h1]

/-- When no sentence makes `computeNGrams` panic, the loop of `Incorporate` is one run of
`add` over the n-grams of all sentences. -/
theorem incorporateLoop_eq_add (normalize : Bool) (ss : List GoString) :
    ∀ sh : Shingles, (∀ s ∈ ss, computeNGrams (words s normalize) sh.n ≠ none) →
      Shingles.incorporateLoop normalize sh ss =
        sh.add (ss.flatMap fun s => (computeNGrams (words s normalize) sh.n).getD []) := by
  induction ss with
  | nil => intro sh _; simp [Shingles.incorporateLoop, Shingles.add]
  | cons s ss ih =>
    intro sh hs
    rw [Shingles.incorporateLoop]
    cases hc : computeNGrams (words s normalize) sh.n with
    | none => exact absurd hc (hs s (by simp))
    | some ngrams =>
      simp only [List.flatMap_cons, hc, Option.getD_some]
      rw [add_append]
      cases ha : sh.add ngrams with
      | none => simp
      | some sh1 =>
        have hn := add_n ngrams sh sh1 ha
        show Shingles.incorporateLoop normalize sh1 ss = _
        rw [ih sh1 (by intro t ht; rw [hn]; exact hs t (by simp [ht])), hn]
        rfl

theorem computeNGrams_ne_none (ws : List GoString) (n : Nat) (hlen : ws.length < 2 ^ 63)
    (hn : n < 2 ^ 63) : computeNGrams ws (n : Int) ≠ none := by
  rw [computeNGrams_eq ws n hlen hn]
  simp

theorem incorporate_eq_add (sh : Shingles) (n : Nat) (corpora : GoString) (normalize : Bool)
    (hshn : sh.n = (n : Int)) (hn : n < 2 ^ 63) (hlen : corpora.length < 2 ^ 63) :
    sh.Incorporate corpora normalize = sh.add (generated (n : Int) corpora normalize) := by
  unfold Shingles.Incorporate generated
  rw [incorporateLoop_eq_add, hshn]
  intro s hs
  rw [hshn]
  apply computeNGrams_ne_none _ n _ hn
  have h1 := words_length_le s normalize
  have h2 := sentences_mem_length_le corpora s hs
  omega

theorem incorporateAll_eq_add (n : Nat) (hn : n < 2 ^ 63) (calls : List (GoString × Bool)) :
    ∀ sh : Shingles, sh.n = (n : Int) → (∀ call ∈ calls, call.1.length < 2 ^ 63) →
      sh.incorporateAll calls = sh.add (generatedAll (n : Int) calls) := by
  induction calls with
  | nil => intro sh _ _; simp [Shingles.incorporateAll, generatedAll, Shingles.add]
  | cons call calls ih =>
    intro sh hshn hlen
    rw [Shingles.incorporateAll, incorporate_eq_add sh n call.1 call.2 hshn hn
      (hlen call (by simp))]
    unfold generatedAll
    rw [List.flatMap_cons, add_append]
    cases ha : sh.add (generated (n : Int) call.1 call.2) with
    | none => simp
    | some sh1 =>
      simp only [Option.bind_some]
      have hn1 := add_n _ sh sh1 ha
      rw [ih sh1 (by rw [hn1, hshn]) (fun c hc => hlen c (by simp [hc]))]
      rfl

/-- A property that every run of `add` keeps is kept by every sequence of `Incorporate`
calls that completes. -/
theorem incorporateLoop_keeps (P : Shingles → Prop)
    (hP : ∀ (l : List GoString) (sh sh2 : Shingles), sh.add l = some sh2 → P sh → P sh2)
    (normalize : Bool) (ss : List GoString) :
    ∀ sh sh2 : Shingles, Shingles.incorporateLoop normalize sh ss = some sh2 → P sh → P sh2 := by
  induction ss with
  | nil =>
    intro sh sh2 h hp
    simp only [Shingles.incorporateLoop, Option.some.injEq] at h
    exact h ▸ hp
  | cons s ss ih =>
    intro sh sh2 h hp
    rw [Shingles.incorporateLoop] at h
    cases hc : computeNGrams (words s normalize) sh.n with
    | none => simp [hc] at h
    | some ngrams =>
      cases ha : sh.add ngrams with
      | none => simp [hc, ha] at h
      | some sh1 =>
        simp only [hc, ha] at h
        exact ih sh1 sh2 h (hP ngrams sh sh1 ha hp)

theorem incorporateAll_keeps (P : Shingles → Prop)
    (hP : ∀ (l : List GoString) (sh sh2 : Shingles), sh.add l = some sh2 → P sh → P sh2)
    (calls : List (GoString × Bool)) :
    ∀ sh sh2 : Shingles, sh.incorporateAll calls = some sh2 → P sh → P sh2 := by
  induction calls with
  | nil =>
    intro sh sh2 h hp
    simp only [Shingles.incorporateAll, Option.some.injEq] at h
    exact h ▸ hp
  | cons call calls ih =>
    intro sh sh2 h hp
    rw [Shingles.incorporateAll] at h
    cases hc : sh.Incorporate call.1 call.2 with
    | none => simp [hc] at h
    | some sh1 =>
      simp only [hc] at h
      exact ih sh1 sh2 h (incorporateLoop_keeps P hP call.2 _ sh sh1 hc hp)

/-! ## Stored texts -/

/-- The text stored under a key after a run of additions: the text already there, or else
the first added string with that key. -/
theorem add_entryOf_ngram (l : List GoString) :
    ∀ sh sh2 : Shingles, sh.add l = some sh2 → ∀ k,
      (sh2.entryOf k).map NGram.ngram =
        match sh.entryOf k with
        | some g => some g.ngram
        | none => l.find? fun x => hash x == k := by
  induction l with
  | nil =>
    intro sh sh2 h k
    simp only [Shingles.add, Option.some.injEq] at h
    subst h
    cases sh.entryOf k <;> simp
  | cons x l ih =>
    intro sh sh2 h k
    cases hm : sh.ngrams with
    | none => rw [add_nil_map sh x l hm] at h; exact absurd h (by simp)
    | some m =>
      have hne : sh.ngrams ≠ none := by simp [hm]
      obtain ⟨sh1, h1, -, -, h4, -, -⟩ := addOne_step sh x hne
      rw [add_cons_of sh sh1 x l h1] at h
      rw [ih sh1 sh2 h k, h4 k]
      by_cases hkx : k = hash x
      · subst hkx
        cases sh.entryOf (hash x) with
        | none => simp
        | some g => simp
      · have hkx2 : ¬ hash x = k := fun e => hkx e.symm
        cases sh.entryOf k with
        | none => simp [hkx, hkx2, List.find?_cons]
        | some g => simp [hkx]

/-! ## Schedules -/

theorem Interleaving.perm {qs : List (List GoString)} {l : List GoString}
    (h : Interleaving qs l) : l.Perm (qs.flatMap id) := by
  induction h with
  | done qs hq =>
    have : qs.flatMap id = [] := by
      rw [List.flatMap_eq_nil_iff]
      exact hq
    rw [this]
  | step before after x q l _ ih =>
    simp only [List.flatMap_append, List.flatMap_cons, id_eq, List.cons_append] at ih ⊢
    exact (ih.cons x).trans List.perm_middle.symm

theorem flatMap_replicate_generated (n : Int) (corpora : GoString) (normalize : Bool)
    (N : Nat) :
    (List.replicate N (generated n corpora normalize)).flatMap id =
      generatedAll n (List.replicate N (corpora, normalize)) := by
  induction N with
  | zero => simp [generatedAll]
  | succ N ih =>
    simp only [List.replicate_succ, List.flatMap_cons, id_eq, ih, generatedAll]

/-! ## The store after a sequence of `Incorporate` calls -/

/-- A freshly initialised store after a sequence of `Incorporate` calls: the run completes,
and the result is the run of `add` over everything the calls generate. -/
theorem fresh_run (n : Nat) (hn : n < 2 ^ 63) (calls : List (GoString × Bool))
    (hlen : ∀ call ∈ calls, call.1.length < 2 ^ 63) :
    ∃ sh, (Shingles.zero.Initialize n).incorporateAll calls = some sh ∧
      (Shingles.zero.Initialize n).add (generatedAll n calls) = some sh := by
  obtain ⟨sh, h, -⟩ := add_total (generatedAll n calls) (Shingles.zero.Initialize n)
    (by simp [Shingles.Initialize])
  exact ⟨sh, by rw [incorporateAll_eq_add n hn calls _ rfl hlen, h], h⟩

theorem entryOf_fresh (n : Int) (k : Nat) : (Shingles.zero.Initialize n).entryOf k = none := by
  simp [Shingles.entryOf, Shingles.Initialize]

/-- C2. For every n-gram length n (1 or more; 0 as well) and every sequence of corpora, each
with its normalize flag, incorporated into a store freshly initialised with `Initialize(n)`,
the calls complete and `Count()` equals the number of distinct identity keys (CRC-32 hashes)
among all n-gram strings generated from all sentences of those corpora; for the test input
"A B C D E F G A B C H I J K L M" with trigrams and no normalization the count is 13. -/
theorem count_eq_distinct_keys (n : Nat) (calls : List (GoString × Bool)) (hn : n < 2 ^ 63)
    (hlen : ∀ call ∈ calls, call.1.length < 2 ^ 63) :
    (∃ sh, (Shingles.zero.Initialize n).incorporateAll calls = some sh ∧
      sh.Count = ((generatedAll n calls).map hash).toFinset.card) ∧
    ((Shingles.zero.Initialize TRIGRAM).Incorporate linearText false).map Shingles.Count
      = some 13 := by
  refine ⟨?_, by decide!⟩
  obtain ⟨sh, h1, h2⟩ := fresh_run n hn calls hlen
  refine ⟨sh, h1, ?_⟩
  have hh := (add_hashes_keys _ _ _ h2).1
  simp only [entryOf_fresh, Option.isNone_none, List.filter_true] at hh
  have h0 : (Shingles.zero.Initialize n).hashes = [] := rfl
  rw [Shingles.Count, hh, h0, List.nil_append, length_firstOccurrences]

theorem count_eq_distinct_keys_witness :
    (∃ sh, (Shingles.zero.Initialize (3 : Nat)).incorporateAll
        [("A B C, A B C D".toList, false), ("the a b c".toList, true)] = some sh ∧
      sh.Count = ((generatedAll (3 : Nat)
        [("A B C, A B C D".toList, false), ("the a b c".toList, true)]).map hash).toFinset.card) ∧
    ((Shingles.zero.Initialize TRIGRAM).Incorporate linearText false).map Shingles.Count
      = some 13 :=
  count_eq_distinct_keys 3 [("A B C, A B C D".toList, false), ("the a b c".toList, true)]
    (by decide) (by decide)

/-- C3. For every store freshly initialised with `Initialize(n)` (n of 1 or more; 0 as
well) and every sequence of `Incorporate` calls, the occurrence count stored under each
identity key is the number of generated n-gram instances (duplicates included) that hash to
that key, a key no instance hashes to has no entry, and the counts of all entries add up to
the number of instances generated; for "A B C D E F G A B C H I J K L M" with trigrams,
"A B C" has count 2 and the other 12 trigrams have count 1. -/
theorem occurrences_eq_instances (n : Nat) (calls : List (GoString × Bool))
    (hn : n < 2 ^ 63) (hlen : ∀ call ∈ calls, call.1.length < 2 ^ 63) :
    (∃ sh, (Shingles.zero.Initialize n).incorporateAll calls = some sh ∧
      (∀ k, sh.occurrencesOf k =
        if k ∈ (generatedAll n calls).map hash
        then some (((generatedAll n calls).map hash).count k) else none) ∧
      (sh.Walk.map Record.count).sum = (generatedAll n calls).length) ∧
    ((Shingles.zero.Initialize TRIGRAM).Incorporate linearText false).map
        (fun sh => sh.Walk.map fun r => (String.mk r.ngram, r.count))
      = some [("A B C", 2), ("B C D", 1), ("C D E", 1), ("D E F", 1), ("E F G", 1),
          ("F G A", 1), ("G A B", 1), ("B C H", 1), ("C H I", 1), ("H I J", 1), ("I J K", 1),
          ("J K L", 1), ("K L M", 1)] := by
  refine ⟨?_, by decide!⟩
  obtain ⟨sh, h1, h2⟩ := fresh_run n hn calls hlen
  refine ⟨sh, h1, ?_, ?_⟩
  · intro k
    rw [add_occurrencesOf _ _ _ h2 k, occurrencesOf_eq_entryOf, entryOf_fresh]
    rfl
  · rw [walk_count_sum, add_occurrencesSum _ _ _ h2 (fresh_wellFormed n)]
    simp [Shingles.Initialize, occurrencesSum]

theorem occurrences_eq_instances_witness :
    (∃ sh, (Shingles.zero.Initialize (3 : Nat)).incorporateAll
        [("A B C, A B C D".toList, false), ("the a b c".toList, true)] = some sh ∧
      (∀ k, sh.occurrencesOf k =
        if k ∈ (generatedAll (3 : Nat)
            [("A B C, A B C D".toList, false), ("the a b c".toList, true)]).map hash
        then some (((generatedAll (3 : Nat)
            [("A B C, A B C D".toList, false), ("the a b c".toList, true)]).map hash).count k)
        else none) ∧
      (sh.Walk.map Record.count).sum = (generatedAll (3 : Nat)
        [("A B C, A B C D".toList, false), ("the a b c".toList, true)]).length) ∧
    ((Shingles.zero.Initialize TRIGRAM).Incorporate linearText false).map
        (fun sh => sh.Walk.map fun r => (String.mk r.ngram, r.count))
      = some [("A B C", 2), ("B C D", 1), ("C D E", 1), ("D E F", 1), ("E F G", 1),
          ("F G A", 1), ("G A B", 1), ("B C H", 1), ("C H I", 1), ("H I J", 1), ("I J K", 1),
          ("J K L", 1), ("K L M", 1)] :=
  occurrences_eq_instances 3 [("A B C, A B C D".toList, false), ("the a b c".toList, true)]
    (by decide) (by decide)

/-- C4, as the code behaves. `Initialize` replaces the map and sets n but leaves the order
sequence as it is, so `Count()` keeps its value: after "A B C" was incorporated as one
trigram, `Initialize(3)` yields an empty map with an order sequence of one key and
`Count() = 1`, and `SortedWalk` on that store panics on the key without entry. -/
theorem initialize_keeps_order_sequence :
    (∀ (sh : Shingles) (n : Int),
      (sh.Initialize n).hashes = sh.hashes ∧ (sh.Initialize n).Count = sh.Count ∧
      (sh.Initialize n).ngrams = some [] ∧ (sh.Initialize n).n = n) ∧
    ((Shingles.zero.Initialize TRIGRAM).Incorporate "A B C".toList false).map
        (fun sh => ((sh.Initialize TRIGRAM).ngrams, (sh.Initialize TRIGRAM).hashes,
          (sh.Initialize TRIGRAM).Count, (sh.Initialize TRIGRAM).SortedWalk.isNone))
      = some (some [], [181159164], 1, true) := by
  refine ⟨fun sh n => ⟨rfl, rfl, rfl, rfl⟩, by decide!⟩

/-- C9. For two n-gram strings s and t with `hash(s) = hash(t)` (distinct or not), adding t
to a store that holds s increments the occurrence counter of the existing entry by exactly
one, keeps its text s, leaves `Count()`, the order sequence, the keys of the map and every
other entry unchanged; adding a string whose key is absent inserts it with occurrence 1,
appends its key to the end of the order sequence and leaves every other entry unchanged. -/
theorem addOne_existing_or_new (sh : Shingles) (hmap : sh.ngrams ≠ none) (t : GoString) :
    (∀ (s : GoString) (c : Nat), hash s = hash t →
      sh.entryOf (hash s) = some { ngram := s, occurrences := c } →
      ∃ sh1, sh.addOne t = some sh1 ∧
        sh1.entryOf (hash s) = some { ngram := s, occurrences := c + 1 } ∧
        sh1.Count = sh.Count ∧ sh1.hashes = sh.hashes ∧ sh1.keys = sh.keys ∧
        ∀ k, k ≠ hash t → sh1.entryOf k = sh.entryOf k) ∧
    (sh.entryOf (hash t) = none →
      ∃ sh1, sh.addOne t = some sh1 ∧
        sh1.entryOf (hash t) = some { ngram := t, occurrences := 1 } ∧
        sh1.hashes = sh.hashes ++ [hash t] ∧ sh1.Count = sh.Count + 1 ∧
        sh1.keys = sh.keys ++ [hash t] ∧
        ∀ k, k ≠ hash t → sh1.entryOf k = sh.entryOf k) := by
  obtain ⟨sh1, h1, -, -, h4, h5, h6⟩ := addOne_step sh t hmap
  refine ⟨?_, ?_⟩
  · intro s c hst he
    rw [hst] at he
    refine ⟨sh1, h1, ?_, ?_, ?_, ?_, ?_⟩
    · rw [hst, h4, he]; simp
    · rw [Shingles.Count, Shingles.Count, h5, he]; simp
    · rw [h5, he]; simp
    · rw [h6, he]; simp
    · intro k hk; rw [h4, if_neg hk]
  · intro he
    refine ⟨sh1, h1, ?_, ?_, ?_, ?_, ?_⟩
    · rw [h4, he]; simp
    · rw [h5, he]; simp
    · rw [Shingles.Count, Shingles.Count, h5, he]; simp
    · rw [h6, he]; simp
    · intro k hk; rw [h4, if_neg hk]

theorem addOne_existing_or_new_witness :
    (∃ sh1, plumlessStore.addOne "buckeroo".toList = some sh1 ∧
      sh1.entryOf (hash "plumless".toList)
        = some { ngram := "plumless".toList, occurrences := 1 + 1 } ∧
      sh1.Count = plumlessStore.Count ∧ sh1.hashes = plumlessStore.hashes ∧
      sh1.keys = plumlessStore.keys ∧
      ∀ k, k ≠ hash "buckeroo".toList → sh1.entryOf k = plumlessStore.entryOf k) ∧
    (∃ sh1, plumlessStore.addOne "plum".toList = some sh1 ∧
      sh1.entryOf (hash "plum".toList) = some { ngram := "plum".toList, occurrences := 1 } ∧
      sh1.hashes = plumlessStore.hashes ++ [hash "plum".toList] ∧
      sh1.Count = plumlessStore.Count + 1 ∧
      sh1.keys = plumlessStore.keys ++ [hash "plum".toList] ∧
      ∀ k, k ≠ hash "plum".toList → sh1.entryOf k = plumlessStore.entryOf k) ∧
    "plumless".toList ≠ "buckeroo".toList :=
  ⟨(addOne_existing_or_new plumlessStore (by decide) "buckeroo".toList).1
      "plumless".toList 1 (by decide!) (by decide!),
    (addOne_existing_or_new plumlessStore (by decide) "plum".toList).2 (by decide!),
    by decide⟩

/-- C10. For every store freshly initialised with `Initialize(n)`, n ≥ 0, and every sequence of
`Incorporate` calls with no `SortedWalk` in between, the order sequence lists the identity
keys in first-seen order: it is the sequence of the keys of all generated n-grams, in
generation order, with every occurrence of a key after its first removed. -/
theorem hashes_first_seen_order (n : Nat) (calls : List (GoString × Bool)) (hn : n < 2 ^ 63)
    (hlen : ∀ call ∈ calls, call.1.length < 2 ^ 63) :
    ∃ sh, (Shingles.zero.Initialize n).incorporateAll calls = some sh ∧
      sh.hashes = firstOccurrences ((generatedAll n calls).map hash) := by
  obtain ⟨sh, h1, h2⟩ := fresh_run n hn calls hlen
  refine ⟨sh, h1, ?_⟩
  have hh := (add_hashes_keys _ _ _ h2).1
  simp only [entryOf_fresh, Option.isNone_none, List.filter_true] at hh
  have h0 : (Shingles.zero.Initialize n).hashes = [] := rfl
  rw [hh, h0, List.nil_append]

theorem hashes_first_seen_order_witness :
    ∃ sh, (Shingles.zero.Initialize (3 : Nat)).incorporateAll
        [(linearText, false), ("a b c d".toList, false)] = some sh ∧
      sh.hashes = firstOccurrences ((generatedAll (3 : Nat)
        [(linearText, false), ("a b c d".toList, false)]).map hash) :=
  hashes_first_seen_order 3 _ (by decide) (by decide)

/-! ## Order of the additions -/

theorem occurrencesOf_add_perm (l1 l2 : List GoString) (hp : l1.Perm l2)
    (sh sh1 sh2 : Shingles) (h1 : sh.add l1 = some sh1) (h2 : sh.add l2 = some sh2) (k : Nat) :
    sh1.occurrencesOf k = sh2.occurrencesOf k := by
  rw [add_occurrencesOf l1 sh sh1 h1 k, add_occurrencesOf l2 sh sh2 h2 k,
    (hp.map hash).count_eq k]
  have hmem : k ∈ l1.map hash ↔ k ∈ l2.map hash := (hp.map hash).mem_iff
  simp only [hmem]

theorem find?_perm_of_unique (l1 l2 : List GoString) (hp : l1.Perm l2) (p : GoString → Bool)
    (hu : ∀ x ∈ l1, ∀ y ∈ l1, p x = true → p y = true → x = y) :
    l1.find? p = l2.find? p := by
  cases h1 : l1.find? p with
  | none =>
    cases h2 : l2.find? p with
    | none => rfl
    | some y =>
      have hy := List.mem_of_find?_eq_some h2
      have hpy := List.find?_some h2
      rw [List.find?_eq_none] at h1
      exact absurd hpy (h1 y (hp.mem_iff.mpr hy))
  | some x =>
    have hx := List.mem_of_find?_eq_some h1
    have hpx := List.find?_some h1
    cases h2 : l2.find? p with
    | none =>
      rw [List.find?_eq_none] at h2
      exact absurd hpx (h2 x (hp.mem_iff.mp hx))
    | some y =>
      have hy := List.mem_of_find?_eq_some h2
      have hpy := List.find?_some h2
      rw [hu x hx y (hp.mem_iff.mpr hy) hpx hpy]

theorem entry_eq_of_fields (a b : Option NGram) (h1 : a.map NGram.ngram = b.map NGram.ngram)
    (h2 : a.map NGram.occurrences = b.map NGram.occurrences) : a = b := by
  cases a with
  | none => cases b <;> simp_all
  | some g =>
    cases b with
    | none => simp_all
    | some g2 =>
      obtain ⟨t, c⟩ := g
      obtain ⟨t2, c2⟩ := g2
      simp_all

/-- C7. For every corpus, every n-gram length n (1 or more; 0 as well), every normalize flag
and every number N of callers (1 or more; 0 as well): when the atomic
per-n-gram additions of N `Incorporate` calls on the same corpus run in any interleaving that
keeps each call's own additions in order, the store ends with the same occurrence count
under every key (and the same keys with an entry) as after N `Incorporate` calls run one
after the other. -/
theorem interleaved_counts (sh : Shingles) (n : Nat) (normalize : Bool) (corpora : GoString)
    (N : Nat) (l : List GoString) (hmap : sh.ngrams ≠ none) (hshn : sh.n = (n : Int))
    (hn : n < 2 ^ 63) (hlen : corpora.length < 2 ^ 63)
    (hl : Interleaving (List.replicate N (generated n corpora normalize)) l) :
    ∃ shI shS, sh.add l = some shI ∧
      sh.incorporateAll (List.replicate N (corpora, normalize)) = some shS ∧
      ∀ k, shI.occurrencesOf k = shS.occurrencesOf k := by
  obtain ⟨shI, hI, -⟩ := add_total l sh hmap
  obtain ⟨shS, hS, -⟩ :=
    add_total (generatedAll n (List.replicate N (corpora, normalize))) sh hmap
  refine ⟨shI, shS, hI, ?_, ?_⟩
  · rw [incorporateAll_eq_add n hn _ sh hshn, hS]
    intro call hc
    rw [List.eq_of_mem_replicate hc]
    exact hlen
  · intro k
    have hp := hl.perm
    rw [flatMap_replicate_generated] at hp
    exact occurrencesOf_add_perm _ _ hp sh shI shS hI hS k

theorem generated_x_y : generated ((1 : Nat) : Int) "x y".toList false
    = ["x".toList, "y".toList] := by decide!

theorem interleaved_counts_witness :
    ∃ shI shS,
      (Shingles.zero.Initialize 1).add ["x".toList, "x".toList, "y".toList, "y".toList]
        = some shI ∧
      (Shingles.zero.Initialize 1).incorporateAll (List.replicate 2 ("x y".toList, false))
        = some shS ∧
      ∀ k, shI.occurrencesOf k = shS.occurrencesOf k :=
  interleaved_counts (Shingles.zero.Initialize 1) 1 false "x y".toList 2
    ["x".toList, "x".toList, "y".toList, "y".toList] (by decide) rfl (by decide) (by decide)
    (generated_x_y ▸
      Interleaving.step [] [["x".toList, "y".toList]] "x".toList ["y".toList] _
        (Interleaving.step [["y".toList]] [] "x".toList ["y".toList] _
          (Interleaving.step [] [["y".toList]] "y".toList [] _
            (Interleaving.step [[]] [] "y".toList [] _
              (Interleaving.done [[], []] (by decide))))))

/-- C8, the claim as stated fails. With unigrams, "plumless" and "buckeroo" share the key
1306201125; incorporated in this order the store holds the text "plumless" with count 2, in
the other order it holds the text "buckeroo" with count 2. -/
theorem incorporate_order_changes_text :
    ((Shingles.zero.Initialize UNIGRAM).incorporateAll
        [("plumless".toList, false), ("buckeroo".toList, false)]).map
        (fun sh => sh.Walk.map fun r => (r.hash, String.mk r.ngram, r.count))
      = some [(1306201125, "plumless", 2)] ∧
    ((Shingles.zero.Initialize UNIGRAM).incorporateAll
        [("buckeroo".toList, false), ("plumless".toList, false)]).map
        (fun sh => sh.Walk.map fun r => (r.hash, String.mk r.ngram, r.count))
      = some [(1306201125, "buckeroo", 2)] := by
  decide!

/-- C8, amended. For every n-gram length n (1 or more; 0 as well), every normalize flag and every two corpora c1 and c2, a
freshly initialised store after `Incorporate(c1)` then `Incorporate(c2)` holds the same
identity keys with the same final occurrence count under each key as after `Incorporate(c2)`
then `Incorporate(c1)`; when no two different generated n-grams share a key, the stored
texts are the same as well. -/
theorem incorporate_order_counts (n : Nat) (normalize : Bool) (c1 c2 : GoString)
    (hn : n < 2 ^ 63) (hc1 : c1.length < 2 ^ 63) (hc2 : c2.length < 2 ^ 63) :
    ∃ sh12 sh21,
      (Shingles.zero.Initialize n).incorporateAll [(c1, normalize), (c2, normalize)]
        = some sh12 ∧
      (Shingles.zero.Initialize n).incorporateAll [(c2, normalize), (c1, normalize)]
        = some sh21 ∧
      sh12.keys.Perm sh21.keys ∧ sh12.hashes.Perm sh21.hashes ∧
      (∀ k, sh12.occurrencesOf k = sh21.occurrencesOf k) ∧
      ((∀ x ∈ generated n c1 normalize ++ generated n c2 normalize,
        ∀ y ∈ generated n c1 normalize ++ generated n c2 normalize,
          hash x = hash y → x = y) →
        ∀ k, sh12.entryOf k = sh21.entryOf k) := by
  have hl12 : ∀ call ∈ [(c1, normalize), (c2, normalize)], call.1.length < 2 ^ 63 := by
    intro call hc
    simp only [List.mem_cons, List.mem_singleton, List.not_mem_nil, or_false] at hc
    rcases hc with hc | hc <;> rw [hc] <;> assumption
  have hl21 : ∀ call ∈ [(c2, normalize), (c1, normalize)], call.1.length < 2 ^ 63 := by
    intro call hc
    simp only [List.mem_cons, List.mem_singleton, List.not_mem_nil, or_false] at hc
    rcases hc with hc | hc <;> rw [hc] <;> assumption
  obtain ⟨sh12, r12, a12⟩ := fresh_run n hn _ hl12
  obtain ⟨sh21, r21, a21⟩ := fresh_run n hn _ hl21
  have hg12 : generatedAll n [(c1, normalize), (c2, normalize)] =
      generated n c1 normalize ++ generated n c2 normalize := by simp [generatedAll]
  have hg21 : generatedAll n [(c2, normalize), (c1, normalize)] =
      generated n c2 normalize ++ generated n c1 normalize := by simp [generatedAll]
  rw [hg12] at a12
  rw [hg21] at a21
  have hp : (generated n c1 normalize ++ generated n c2 normalize).Perm
      (generated n c2 normalize ++ generated n c1 normalize) := List.perm_append_comm
  have hocc : ∀ k, sh12.occurrencesOf k = sh21.occurrencesOf k :=
    fun k => occurrencesOf_add_perm _ _ hp _ sh12 sh21 a12 a21 k
  have hw12 := add_wellFormed _ _ _ a12 (fresh_wellFormed n)
  have hw21 := add_wellFormed _ _ _ a21 (fresh_wellFormed n)
  have hkeys : sh12.keys.Perm sh21.keys := by
    rw [List.perm_ext_iff_of_nodup (keys_nodup_of_wellFormed _ hw12)
      (keys_nodup_of_wellFormed _ hw21)]
    intro k
    rw [← not_iff_not, ← entryOf_eq_none_iff sh12 k hw12.1, ← entryOf_eq_none_iff sh21 k hw21.1]
    have := hocc k
    rw [occurrencesOf_eq_entryOf, occurrencesOf_eq_entryOf] at this
    cases h12 : sh12.entryOf k <;> cases h21 : sh21.entryOf k <;> simp_all
  refine ⟨sh12, sh21, r12, r21, hkeys, (hw12.2.1.symm.trans hkeys).trans hw21.2.1, hocc, ?_⟩
  intro hinj k
  apply entry_eq_of_fields
  · rw [add_entryOf_ngram _ _ _ a12 k, add_entryOf_ngram _ _ _ a21 k, entryOf_fresh]
    simp only
    apply find?_perm_of_unique _ _ hp
    intro x hx y hy hpx hpy
    apply hinj x hx y hy
    simp only [beq_iff_eq] at hpx hpy
    rw [hpx, hpy]
  · have := hocc k
    rw [occurrencesOf_eq_entryOf, occurrencesOf_eq_entryOf] at this
    exact this

theorem incorporate_order_counts_witness :
    ∃ sh12 sh21,
      (Shingles.zero.Initialize (2 : Nat)).incorporateAll
        [("a b c".toList, false), ("b c d".toList, false)] = some sh12 ∧
      (Shingles.zero.Initialize (2 : Nat)).incorporateAll
        [("b c d".toList, false), ("a b c".toList, false)] = some sh21 ∧
      sh12.keys.Perm sh21.keys ∧ sh12.hashes.Perm sh21.hashes ∧
      (∀ k, sh12.occurrencesOf k = sh21.occurrencesOf k) ∧
      ∀ k, sh12.entryOf k = sh21.entryOf k :=
  match incorporate_order_counts 2 false "a b c".toList "b c d".toList (by decide) (by decide)
    (by decide) with
  | ⟨sh12, sh21, r12, r21, hk, hh, ho, ht⟩ =>
    ⟨sh12, sh21, r12, r21, hk, hh, ho, ht (by decide!)⟩

/-! ## The sort -/

theorem getElem?_at_length (pre : List Nat) (x : Nat) (post : List Nat) :
    (pre ++ x :: post)[pre.length]? = some x := by
  induction pre with
  | nil => simp
  | cons a pre ih => simpa using ih

theorem getElem?_at_length_succ (pre : List Nat) (p x : Nat) (post : List Nat) :
    (pre ++ p :: x :: post)[pre.length + 1]? = some x := by
  induction pre with
  | nil => simp
  | cons a pre ih => simpa using ih

theorem set_set_swap (pre : List Nat) (p x : Nat) (post : List Nat) :
    ((pre ++ p :: x :: post).set (pre.length + 1) p).set pre.length x =
      pre ++ x :: p :: post := by
  induction pre with
  | nil => simp
  | cons a pre ih => simp [ih]

theorem countOf_eq_of_some (sh : Shingles) (k c : Nat) (h : sh.occurrencesOf k = some c) :
    sh.countOf k = c := by
  simp [Shingles.countOf, h]

/-- The comparison of the reversed order at two neighbours: whether the left one has the
smaller counter. -/
theorem reverseLess_neighbours (data : Shingles) (pre : List Nat) (p x : Nat)
    (post : List Nat) (hh : data.hashes = pre ++ p :: x :: post)
    (hp : data.occurrencesOf p ≠ none) (hx : data.occurrencesOf x ≠ none) :
    data.reverseLess (pre.length + 1) pre.length =
      some (decide (data.countOf p < data.countOf x)) := by
  unfold Shingles.reverseLess Shingles.Less
  rw [hh, getElem?_at_length, getElem?_at_length_succ]
  obtain ⟨a, h1⟩ := Option.ne_none_iff_exists'.mp hp
  obtain ⟨b, h2⟩ := Option.ne_none_iff_exists'.mp hx
  simp only [h1, h2, countOf_eq_of_some _ _ _ h1, countOf_eq_of_some _ _ _ h2]

theorem swap_neighbours (data : Shingles) (pre : List Nat) (p x : Nat) (post : List Nat)
    (hh : data.hashes = pre ++ p :: x :: post) :
    data.Swap (pre.length + 1) pre.length =
      some { data with hashes := pre ++ x :: p :: post } := by
  unfold Shingles.Swap
  rw [hh, getElem?_at_length, getElem?_at_length_succ]
  simp only [set_set_swap]

/-- The inner loop moves the element at index j to the left past every neighbour with a
smaller counter, and stops at the first neighbour whose counter is not smaller. -/
theorem insertionInner_spec (j : Nat) :
    ∀ (data : Shingles) (pre : List Nat) (x : Nat) (post : List Nat),
      data.hashes = pre ++ x :: post → pre.length = j →
      (∀ k ∈ data.hashes, data.occurrencesOf k ≠ none) →
      ∃ data1 pre1 pre2, insertionInner data j = some data1 ∧
        data1.ngrams = data.ngrams ∧ data1.n = data.n ∧
        pre = pre1 ++ pre2 ∧ data1.hashes = pre1 ++ x :: (pre2 ++ post) ∧
        (∀ y ∈ pre2, data.countOf y < data.countOf x) ∧
        (∀ p ∈ pre1.getLast?, data.countOf x ≤ data.countOf p) := by
  induction j with
  | zero =>
    intro data pre x post hh hlen _
    have hpre : pre = [] := List.length_eq_zero.mp hlen
    subst hpre
    exact ⟨data, [], [], rfl, rfl, rfl, rfl, by simp [hh], by simp, by simp⟩
  | succ j ih =>
    intro data pre x post hh hlen hcov
    obtain ⟨pre0, p, hpre⟩ : ∃ pre0 p, pre = pre0 ++ [p] := by
      rcases List.eq_nil_or_concat pre with h | ⟨pre0, p, h⟩
      · subst h; simp at hlen
      · exact ⟨pre0, p, by simpa using h⟩
    subst hpre
    have hlen0 : pre0.length = j := by simpa using hlen
    have hh2 : data.hashes = pre0 ++ p :: x :: post := by simpa using hh
    have hp : data.occurrencesOf p ≠ none := hcov p (by rw [hh2]; simp)
    have hx : data.occurrencesOf x ≠ none := hcov x (by rw [hh2]; simp)
    have hless := reverseLess_neighbours data pre0 p x post hh2 hp hx
    rw [hlen0] at hless
    rw [insertionInner, hless]
    by_cases hlt : data.countOf p < data.countOf x
    · have hswap := swap_neighbours data pre0 p x post hh2
      rw [hlen0] at hswap
      simp only [hlt, decide_True, hswap]
      obtain ⟨data1, pre1, pre2, h1, h2, h3, h4, h5, h6, h7⟩ :=
        ih { data with hashes := pre0 ++ x :: p :: post } pre0 x (p :: post) rfl hlen0
          (by
            intro k hk
            have : k ∈ data.hashes := by
              rw [hh2]
              simp only [List.mem_append, List.mem_cons] at hk ⊢
              tauto
            exact hcov k this)
      refine ⟨data1, pre1, pre2 ++ [p], h1, h2, h3, ?_, ?_, ?_, h7⟩
      · rw [h4]; simp
      · rw [h5]; simp
      · intro y hy
        simp only [List.mem_append, List.mem_singleton] at hy
        rcases hy with hy | hy
        · exact h6 y hy
        · rw [hy]; exact hlt
    · simp only [hlt, decide_False]
      refine ⟨data, pre0 ++ [p], [], rfl, rfl, rfl, by simp, by simpa using hh2, by simp, ?_⟩
      intro q hq
      simp only [List.getLast?_concat, Option.mem_def, Option.some.injEq] at hq
      rw [← hq]
      omega

theorem occurrencesOf_congr (sh1 sh2 : Shingles) (h : sh1.ngrams = sh2.ngrams) (k : Nat) :
    sh1.occurrencesOf k = sh2.occurrencesOf k := by
  unfold Shingles.occurrencesOf
  rw [h]

theorem countOf_congr (sh1 sh2 : Shingles) (h : sh1.ngrams = sh2.ngrams) (k : Nat) :
    sh1.countOf k = sh2.countOf k := by
  unfold Shingles.countOf
  rw [occurrencesOf_congr sh1 sh2 h]

theorem le_of_getLast?_of_pairwise (f : Nat → Nat) (l : List Nat)
    (hs : l.Pairwise fun a b => f b ≤ f a) :
    ∀ p ∈ l.getLast?, ∀ a ∈ l, f p ≤ f a := by
  intro p hp a ha
  rcases List.eq_nil_or_concat l with h | ⟨init, q, h⟩
  · subst h; simp at ha
  · have hl : l = init ++ [q] := by simpa using h
    subst hl
    simp only [List.getLast?_concat, Option.mem_def, Option.some.injEq] at hp
    subst hp
    rw [List.pairwise_append] at hs
    simp only [List.mem_append, List.mem_singleton] at ha
    rcases ha with ha | ha
    · exact hs.2.2 a ha q (by simp)
    · rw [ha]

/-- The outer loop extends the sorted front of the order sequence by one element in each
iteration. -/
theorem insertionOuter_spec (f : Nat → Nat) (count : Nat) :
    ∀ (data : Shingles) (i : Nat) (pre rest : List Nat),
      data.hashes = pre ++ rest → pre.length = i → rest.length = count →
      (∀ k, data.countOf k = f k) →
      (∀ k ∈ data.hashes, data.occurrencesOf k ≠ none) →
      (pre.Pairwise fun a b => f b ≤ f a) →
      ∃ data1, insertionOuter data i count = some data1 ∧
        data1.ngrams = data.ngrams ∧ data1.n = data.n ∧
        data1.hashes.Perm data.hashes ∧
        data1.hashes.Pairwise fun a b => f b ≤ f a := by
  induction count with
  | zero =>
    intro data i pre rest hh _ hrest _ _ hs
    have : rest = [] := List.length_eq_zero.mp hrest
    subst this
    refine ⟨data, rfl, rfl, rfl, List.Perm.refl _, ?_⟩
    rw [hh, List.append_nil]
    exact hs
  | succ count ih =>
    intro data i pre rest hh hlen hrest hf hcov hs
    obtain ⟨x, post, hr⟩ : ∃ x post, rest = x :: post := by
      cases rest with
      | nil => simp at hrest
      | cons x post => exact ⟨x, post, rfl⟩
    subst hr
    obtain ⟨data1, pre1, pre2, h1, h2, h3, h4, h5, h6, h7⟩ :=
      insertionInner_spec i data pre x post hh hlen hcov
    have hperm : data1.hashes.Perm data.hashes := by
      rw [h5, hh, h4]
      simp only [List.append_assoc]
      exact List.Perm.append_left pre1 List.perm_middle.symm
    have hsorted : (pre1 ++ x :: pre2).Pairwise fun a b => f b ≤ f a := by
      rw [h4, List.pairwise_append] at hs
      obtain ⟨hs1, hs2, hs12⟩ := hs
      rw [List.pairwise_append]
      refine ⟨hs1, ?_, ?_⟩
      · rw [List.pairwise_cons]
        refine ⟨?_, hs2⟩
        intro y hy
        have := h6 y hy
        rw [hf, hf] at this
        omega
      · intro a ha b hb
        simp only [List.mem_cons] at hb
        rcases hb with hb | hb
        · rw [hb]
          cases hl : pre1.getLast? with
          | none =>
            rw [List.getLast?_eq_none_iff] at hl
            subst hl
            simp at ha
          | some p =>
            have hxp := h7 p (by simp [hl])
            rw [hf, hf] at hxp
            have hpa := le_of_getLast?_of_pairwise f pre1 hs1 p (by simp [hl]) a ha
            omega
        · exact hs12 a ha b hb
    obtain ⟨data2, g1, g2, g3, g4, g5⟩ :=
      ih data1 (i + 1) (pre1 ++ x :: pre2) post (by rw [h5]; simp)
        (by rw [← hlen, h4]; simp; omega) (by simpa using hrest)
        (fun k => by rw [countOf_congr data1 data h2, hf])
        (fun k hk => by
          rw [occurrencesOf_congr data1 data h2]
          exact hcov k (hperm.mem_iff.mp hk))
        hsorted
    refine ⟨data2, ?_, g2.trans h2, g3.trans h3, g4.trans hperm, g5⟩
    rw [insertionOuter, h1]
    exact g1

/-- The sort succeeds on a store whose order sequence holds only keys with an entry: it
permutes the order sequence into non-increasing counters and changes nothing else. -/
theorem sortReverse_spec (sh : Shingles) (hcov : ∀ k ∈ sh.hashes, sh.occurrencesOf k ≠ none) :
    ∃ sh1, sortReverse sh = some sh1 ∧ sh1.ngrams = sh.ngrams ∧ sh1.n = sh.n ∧
      sh1.hashes.Perm sh.hashes ∧
      sh1.hashes.Pairwise fun a b => sh.countOf b ≤ sh.countOf a := by
  unfold sortReverse Shingles.Len
  cases hh : sh.hashes with
  | nil =>
    refine ⟨sh, by simp [insertionOuter], rfl, rfl, by rw [hh], by rw [hh]; simp⟩
  | cons a rest =>
    have := insertionOuter_spec sh.countOf rest.length sh 1 [a] rest (by simpa using hh) rfl rfl
      (fun _ => rfl) hcov (by simp)
    simpa [hh] using this

theorem walkHashes_eq (sh : Shingles) (l : List Nat)
    (hcov : ∀ k ∈ l, sh.occurrencesOf k ≠ none) :
    sh.walkHashes l = some (sh.recordsOf l) := by
  induction l with
  | nil => simp [Shingles.walkHashes, Shingles.recordsOf]
  | cons k l ih =>
    have hk := hcov k (by simp)
    have ih2 := ih (fun q hq => hcov q (by simp [hq]))
    unfold Shingles.occurrencesOf at hk
    rw [Shingles.walkHashes]
    cases hm : sh.ngrams with
    | none => simp [hm] at hk
    | some m =>
      rw [hm] at hk
      cases hl : m.lookup k with
      | none => simp [hl] at hk
      | some g =>
        simp only [ih2]
        simp [Shingles.recordsOf, Shingles.entryOf, hm, hl]

theorem recordsOf_count (sh : Shingles) (l : List Nat)
    (hcov : ∀ k ∈ l, sh.occurrencesOf k ≠ none) :
    (sh.recordsOf l).map Record.count = l.map sh.countOf := by
  induction l with
  | nil => simp [Shingles.recordsOf]
  | cons k l ih =>
    have hk := hcov k (by simp)
    have ih2 := ih (fun q hq => hcov q (by simp [hq]))
    rw [occurrencesOf_eq_entryOf] at hk
    unfold Shingles.recordsOf at ih2 ⊢
    cases he : sh.entryOf k with
    | none => simp [he] at hk
    | some g =>
      simp only [List.filterMap_cons, he, Option.map_some', List.map_cons, ih2]
      simp [Shingles.countOf, occurrencesOf_eq_entryOf, he]

/-- `SortedWalk` on a store whose order sequence holds only keys with an entry. -/
theorem sortedWalk_spec (sh : Shingles) (hcov : ∀ k ∈ sh.hashes, sh.occurrencesOf k ≠ none) :
    ∃ sh1, sh.SortedWalk = some (sh1, sh1.recordsOf sh1.hashes) ∧
      sh1.ngrams = sh.ngrams ∧ sh1.n = sh.n ∧ sh1.hashes.Perm sh.hashes ∧
      (sh1.hashes.Pairwise fun a b => sh.countOf b ≤ sh.countOf a) ∧
      (∀ k ∈ sh1.hashes, sh1.occurrencesOf k ≠ none) := by
  obtain ⟨sh1, h1, h2, h3, h4, h5⟩ := sortReverse_spec sh hcov
  have hcov1 : ∀ k ∈ sh1.hashes, sh1.occurrencesOf k ≠ none := by
    intro k hk
    rw [occurrencesOf_congr sh1 sh h2]
    exact hcov k (h4.mem_iff.mp hk)
  refine ⟨sh1, ?_, h2, h3, h4, h5, hcov1⟩
  unfold Shingles.SortedWalk
  rw [h1]
  simp only [walkHashes_eq sh1 sh1.hashes hcov1]

theorem wellFormed_covered (sh : Shingles) (hw : sh.WellFormed) :
    ∀ k ∈ sh.hashes, sh.occurrencesOf k ≠ none := by
  intro k hk
  rw [occurrencesOf_eq_entryOf]
  have hne : sh.entryOf k ≠ none := by
    intro hc
    exact (entryOf_eq_none_iff sh k hw.1).mp hc (hw.2.1.mem_iff.mpr hk)
  cases he : sh.entryOf k with
  | none => exact absurd he hne
  | some g => simp

/-! ## Reading the store -/

theorem built_wellFormed (n : Int) (calls : List (GoString × Bool)) (sh : Shingles)
    (h : (Shingles.zero.Initialize n).incorporateAll calls = some sh) : sh.WellFormed :=
  incorporateAll_keeps Shingles.WellFormed add_wellFormed calls _ sh h (fresh_wellFormed n)

theorem sortedWalk_counts_sorted (sh sh1 : Shingles) (h2 : sh1.ngrams = sh.ngrams)
    (hs : sh1.hashes.Pairwise fun a b => sh.countOf b ≤ sh.countOf a)
    (hcov1 : ∀ k ∈ sh1.hashes, sh1.occurrencesOf k ≠ none) :
    ((sh1.recordsOf sh1.hashes).map Record.count).Pairwise fun a b => b ≤ a := by
  rw [recordsOf_count sh1 sh1.hashes hcov1, List.pairwise_map]
  refine hs.imp ?_
  intro a b hab
  rw [countOf_congr sh1 sh h2, countOf_congr sh1 sh h2]
  exact hab

/-- C5. For every store built by `Initialize` on a fresh store followed by any number of
`Incorporate` calls, `SortedWalk` returns, and the records it enumerates are non-increasing
in occurrence count: each record's count is at least the count of the record after it (and of
every later record). There is one record for each key of the order sequence. -/
theorem sortedWalk_nonincreasing (n : Int) (calls : List (GoString × Bool)) (sh : Shingles)
    (h : (Shingles.zero.Initialize n).incorporateAll calls = some sh) :
    ∃ sh1 records, sh.SortedWalk = some (sh1, records) ∧
      (∀ i (hi : i + 1 < records.length),
        (records.get ⟨i + 1, hi⟩).count ≤ (records.get ⟨i, Nat.lt_of_succ_lt hi⟩).count) ∧
      (records.Pairwise fun a b => b.count ≤ a.count) ∧
      records.length = sh.Count := by
  have hcov := wellFormed_covered sh (built_wellFormed n calls sh h)
  obtain ⟨sh1, h1, h2, -, h4, h5, hcov1⟩ := sortedWalk_spec sh hcov
  have hp := sortedWalk_counts_sorted sh sh1 h2 h5 hcov1
  rw [List.pairwise_map] at hp
  refine ⟨sh1, _, h1, ?_, hp, ?_⟩
  · intro i hi
    exact (List.pairwise_iff_getElem.mp hp) i (i + 1) (Nat.lt_of_succ_lt hi) hi (Nat.lt_succ_self i)
  · have := congrArg List.length (recordsOf_count sh1 sh1.hashes hcov1)
    simp only [List.length_map] at this
    rw [this, Shingles.Count, h4.length_eq]

theorem sortedWalk_nonincreasing_witness :
    ∃ sh1 records, bcdStore.SortedWalk = some (sh1, records) ∧
      (∀ i (hi : i + 1 < records.length),
        (records.get ⟨i + 1, hi⟩).count ≤ (records.get ⟨i, Nat.lt_of_succ_lt hi⟩).count) ∧
      (records.Pairwise fun a b => b.count ≤ a.count) ∧
      records.length = bcdStore.Count :=
  sortedWalk_nonincreasing 3 [("A B C D, B C D".toList, false)] bcdStore (by decide!)

/-! ## What the reading operations leave alone -/

theorem split_at_neighbours (j : Nat) :
    ∀ (l : List Nat) (p x : Nat), l[j]? = some p → l[j + 1]? = some x →
      ∃ pre post, l = pre ++ p :: x :: post ∧ pre.length = j := by
  induction j with
  | zero =>
    intro l p x h1 h2
    cases l with
    | nil => simp at h1
    | cons a l =>
      cases l with
      | nil => simp at h2
      | cons b l =>
        simp only [List.getElem?_cons_zero, Option.some.injEq] at h1
        simp only [zero_add, List.getElem?_cons_succ, List.getElem?_cons_zero,
          Option.some.injEq] at h2
        exact ⟨[], l, by rw [h1, h2]; rfl, rfl⟩
  | succ j ih =>
    intro l p x h1 h2
    cases l with
    | nil => simp at h1
    | cons a l =>
      simp only [List.getElem?_cons_succ] at h1 h2
      obtain ⟨pre, post, hl, hlen⟩ := ih l p x h1 h2
      exact ⟨a :: pre, post, by rw [hl]; rfl, by simp [hlen]⟩

theorem swap_neighbours_frame (data d : Shingles) (j : Nat)
    (h : data.Swap (j + 1) j = some d) :
    d.ngrams = data.ngrams ∧ d.n = data.n ∧ d.hashes.Perm data.hashes := by
  have h0 := h
  unfold Shingles.Swap at h0
  cases h1 : data.hashes[j + 1]? with
  | none => simp [h1] at h0
  | some x =>
    cases h2 : data.hashes[j]? with
    | none => simp [h1, h2] at h0
    | some p =>
      obtain ⟨pre, post, hl, hlen⟩ := split_at_neighbours j data.hashes p x h2 h1
      have hs := swap_neighbours data pre p x post hl
      rw [hlen, h] at hs
      simp only [Option.some.injEq] at hs
      subst hs
      refine ⟨rfl, rfl, ?_⟩
      rw [hl]
      exact List.Perm.append_left pre (List.Perm.swap p x post)

theorem insertionInner_frame (j : Nat) :
    ∀ data d : Shingles, insertionInner data j = some d →
      d.ngrams = data.ngrams ∧ d.n = data.n ∧ d.hashes.Perm data.hashes := by
  induction j with
  | zero =>
    intro data d h
    simp only [insertionInner, Option.some.injEq] at h
    subst h
    exact ⟨rfl, rfl, List.Perm.refl _⟩
  | succ j ih =>
    intro data d h
    rw [insertionInner] at h
    cases hl : data.reverseLess (j + 1) j with
    | none => simp [hl] at h
    | some b =>
      cases b with
      | false =>
        simp only [hl, Option.some.injEq] at h
        subst h
        exact ⟨rfl, rfl, List.Perm.refl _⟩
      | true =>
        cases hs : data.Swap (j + 1) j with
        | none => simp [hl, hs] at h
        | some d1 =>
          simp only [hl, hs] at h
          obtain ⟨a1, a2, a3⟩ := swap_neighbours_frame data d1 j hs
          obtain ⟨b1, b2, b3⟩ := ih d1 d h
          exact ⟨b1.trans a1, b2.trans a2, b3.trans a3⟩

theorem insertionOuter_frame (count : Nat) :
    ∀ (data d : Shingles) (i : Nat), insertionOuter data i count = some d →
      d.ngrams = data.ngrams ∧ d.n = data.n ∧ d.hashes.Perm data.hashes := by
  induction count with
  | zero =>
    intro data d i h
    simp only [insertionOuter, Option.some.injEq] at h
    subst h
    exact ⟨rfl, rfl, List.Perm.refl _⟩
  | succ count ih =>
    intro data d i h
    rw [insertionOuter] at h
    cases hi : insertionInner data i with
    | none => simp [hi] at h
    | some d1 =>
      simp only [hi] at h
      obtain ⟨a1, a2, a3⟩ := insertionInner_frame i data d1 hi
      obtain ⟨b1, b2, b3⟩ := ih d1 d (i + 1) h
      exact ⟨b1.trans a1, b2.trans a2, b3.trans a3⟩

theorem walkHashes_covered (sh : Shingles) (l : List Nat) :
    ∀ records, sh.walkHashes l = some records → ∀ k ∈ l, sh.occurrencesOf k ≠ none := by
  induction l with
  | nil => intro _ _ k hk; simp at hk
  | cons a l ih =>
    intro records h k hk
    rw [Shingles.walkHashes] at h
    cases hm : sh.ngrams with
    | none => simp [hm] at h
    | some m =>
      cases hl : m.lookup a with
      | none => simp [hm, hl] at h
      | some g =>
        cases hw : sh.walkHashes l with
        | none => simp [hm, hl, hw] at h
        | some rs =>
          simp only [List.mem_cons] at hk
          rcases hk with hk | hk
          · subst hk
            simp [Shingles.occurrencesOf, hm, hl]
          · exact ih rs hw k hk

/-- A `SortedWalk` that does not panic leaves the map and n alone, permutes the order
sequence, and shows that every key of the order sequence has an entry. -/
theorem sortedWalk_frame (sh s : Shingles) (r : List Record) (h : sh.SortedWalk = some (s, r)) :
    s.ngrams = sh.ngrams ∧ s.n = sh.n ∧ s.hashes.Perm sh.hashes ∧
      ∀ k ∈ sh.hashes, sh.occurrencesOf k ≠ none := by
  unfold Shingles.SortedWalk at h
  cases hs : sortReverse sh with
  | none => simp [hs] at h
  | some s1 =>
    cases hw : s1.walkHashes s1.hashes with
    | none => simp [hs, hw] at h
    | some rs =>
      simp only [hs, hw, Option.some.injEq, Prod.mk.injEq] at h
      obtain ⟨a1, a2, a3⟩ := insertionOuter_frame _ sh s1 1 hs
      rw [← h.1]
      refine ⟨a1, a2, a3, ?_⟩
      intro k hk
      rw [← occurrencesOf_congr s1 sh a1]
      exact walkHashes_covered s1 s1.hashes rs hw k (a3.mem_iff.mpr hk)

theorem entryOf_congr (sh1 sh2 : Shingles) (h : sh1.ngrams = sh2.ngrams) (k : Nat) :
    sh1.entryOf k = sh2.entryOf k := by
  unfold Shingles.entryOf
  rw [h]

theorem recordsOf_congr (sh1 sh2 : Shingles) (h : sh1.ngrams = sh2.ngrams)
    (hc : sh1.Count = sh2.Count) (l : List Nat) : sh1.recordsOf l = sh2.recordsOf l := by
  unfold Shingles.recordsOf
  simp only [entryOf_congr sh1 sh2 h, hc]

theorem walk_congr (sh1 sh2 : Shingles) (h : sh1.ngrams = sh2.ngrams)
    (hc : sh1.Count = sh2.Count) : sh1.Walk = sh2.Walk := by
  unfold Shingles.Walk
  rw [h, hc]

theorem readAll_frame (ops : List ReadOp) :
    ∀ sh sh1 : Shingles, sh.readAll ops = some sh1 →
      sh1.ngrams = sh.ngrams ∧ sh1.n = sh.n ∧ sh1.hashes.Perm sh.hashes := by
  induction ops with
  | nil =>
    intro sh sh1 h
    simp only [Shingles.readAll, Option.some.injEq] at h
    subst h
    exact ⟨rfl, rfl, List.Perm.refl _⟩
  | cons op ops ih =>
    intro sh sh1 h
    rw [Shingles.readAll] at h
    cases op with
    | count => exact ih sh sh1 (by simpa [Shingles.read] using h)
    | walk => exact ih sh sh1 (by simpa [Shingles.read] using h)
    | sortedWalk =>
      cases hs : sh.SortedWalk with
      | none => simp [Shingles.read, hs] at h
      | some sr =>
        obtain ⟨s, r⟩ := sr
        simp only [Shingles.read, hs, Option.map_some'] at h
        obtain ⟨a1, a2, a3, -⟩ := sortedWalk_frame sh s r hs
        obtain ⟨b1, b2, b3⟩ := ih s sh1 h
        exact ⟨b1.trans a1, b2.trans a2, b3.trans a3⟩

/-- A sequence of reading operations on a store whose order sequence holds only keys with an
entry completes. -/
theorem readAll_total (ops : List ReadOp) :
    ∀ sh : Shingles, (∀ k ∈ sh.hashes, sh.occurrencesOf k ≠ none) →
      ∃ sh1, sh.readAll ops = some sh1 := by
  induction ops with
  | nil => intro sh _; exact ⟨sh, rfl⟩
  | cons op ops ih =>
    intro sh hcov
    cases op with
    | count =>
      obtain ⟨sh1, h1⟩ := ih sh hcov
      exact ⟨sh1, by simpa [Shingles.readAll, Shingles.read] using h1⟩
    | walk =>
      obtain ⟨sh1, h1⟩ := ih sh hcov
      exact ⟨sh1, by simpa [Shingles.readAll, Shingles.read] using h1⟩
    | sortedWalk =>
      obtain ⟨s, g1, -, -, -, -, g6⟩ := sortedWalk_spec sh hcov
      obtain ⟨sh1, h1⟩ := ih s g6
      exact ⟨sh1, by simpa [Shingles.readAll, Shingles.read, g1] using h1⟩

/-- C6. `Count()`, `Walk()` and `SortedWalk()` never change the mapping from identity key to
(text, occurrence count) nor the value of `Count()`: after any sequence of these calls that
runs to its end on any store, the mapping and `Count()` are as before, `Walk()` yields the
same records as before, and where `SortedWalk()` returned records before it returns again,
with the same records up to their order and the same sequence of counts. On a store built by
`Initialize` on a fresh store followed by `Incorporate` calls every such sequence runs to its
end and `SortedWalk()` returns. -/
theorem reads_keep_store (sh sh1 : Shingles) (ops : List ReadOp)
    (h : sh.readAll ops = some sh1) :
    sh1.ngrams = sh.ngrams ∧ sh1.Count = sh.Count ∧ sh1.Walk = sh.Walk ∧
    (∀ s0 r0, sh.SortedWalk = some (s0, r0) →
      s0.ngrams = sh.ngrams ∧ s0.Count = sh.Count ∧
      ∃ s1 r1, sh1.SortedWalk = some (s1, r1) ∧ r1.Perm r0 ∧
        r1.map Record.count = r0.map Record.count) ∧
    (∀ (n : Int) (calls : List (GoString × Bool)),
      (Shingles.zero.Initialize n).incorporateAll calls = some sh →
      (∃ s0 r0, sh.SortedWalk = some (s0, r0)) ∧
      ∀ ops2 : List ReadOp, ∃ sh2, sh.readAll ops2 = some sh2) := by
  obtain ⟨h2, -, h4⟩ := readAll_frame ops sh sh1 h
  have hc : sh1.Count = sh.Count := h4.length_eq
  refine ⟨h2, hc, walk_congr sh1 sh h2 hc, ?_, ?_⟩
  · intro s0 r0 hs0
    obtain ⟨c1, -, c3, hcov⟩ := sortedWalk_frame sh s0 r0 hs0
    have hcov1 : ∀ k ∈ sh1.hashes, sh1.occurrencesOf k ≠ none := by
      intro k hk
      rw [occurrencesOf_congr sh1 sh h2]
      exact hcov k (h4.mem_iff.mp hk)
    obtain ⟨t0, a1, a2, -, a4, a5, a6⟩ := sortedWalk_spec sh hcov
    rw [hs0] at a1
    simp only [Option.some.injEq, Prod.mk.injEq] at a1
    obtain ⟨e1, e2⟩ := a1
    subst e1
    obtain ⟨s1, b1, b2, -, b4, b5, b6⟩ := sortedWalk_spec sh1 hcov1
    refine ⟨c1, c3.length_eq, s1, _, b1, ?_, ?_⟩
    · rw [e2]
      have hrec : s1.recordsOf s1.hashes = s0.recordsOf s1.hashes :=
        recordsOf_congr s1 s0 (b2.trans (h2.trans a2.symm))
          (b4.length_eq.trans (hc.trans a4.length_eq.symm)) _
      rw [hrec]
      exact List.Perm.filterMap _ (b4.trans (h4.trans a4.symm))
    · rw [e2]
      have hs0 := sortedWalk_counts_sorted sh s0 a2 a5 a6
      have hs1 := sortedWalk_counts_sorted sh1 s1 b2 b5 b6
      rw [recordsOf_count s0 s0.hashes a6] at hs0 ⊢
      rw [recordsOf_count s1 s1.hashes b6] at hs1 ⊢
      have hf : s1.countOf = s0.countOf := by
        funext k
        exact countOf_congr s1 s0 (b2.trans (h2.trans a2.symm)) k
      rw [hf] at hs1 ⊢
      have hp : (s1.hashes.map s0.countOf).Perm (s0.hashes.map s0.countOf) :=
        (b4.trans (h4.trans a4.symm)).map _
      exact List.eq_of_perm_of_sorted hp
        (show List.Sorted (fun a b => a ≥ b) _ from hs1)
        (show List.Sorted (fun a b => a ≥ b) _ from hs0)
  · intro n calls hb
    have hcov := wellFormed_covered sh (built_wellFormed n calls sh hb)
    obtain ⟨s0, a1, -⟩ := sortedWalk_spec sh hcov
    exact ⟨⟨s0, _, a1⟩, fun ops2 => readAll_total ops2 sh hcov⟩

theorem reads_keep_store_witness :
    (bcdSorted.ngrams = bcdStore.ngrams ∧ bcdSorted.Count = bcdStore.Count ∧
      bcdSorted.Walk = bcdStore.Walk) ∧
    (∃ s1 r1, bcdSorted.SortedWalk = some (s1, r1) ∧
      r1.Perm (bcdSorted.recordsOf bcdSorted.hashes) ∧
      r1.map Record.count = (bcdSorted.recordsOf bcdSorted.hashes).map Record.count) ∧
    (∃ s0 r0, bcdStore.SortedWalk = some (s0, r0)) ∧
    ∀ ops2 : List ReadOp, ∃ sh2, bcdStore.readAll ops2 = some sh2 :=
  have H := reads_keep_store bcdStore bcdSorted
    [ReadOp.count, ReadOp.sortedWalk, ReadOp.walk, ReadOp.sortedWalk] (by decide!)
  ⟨⟨H.1, H.2.1, H.2.2.1⟩,
    (H.2.2.2.1 bcdSorted (bcdSorted.recordsOf bcdSorted.hashes) (by decide!)).2.2,
    H.2.2.2.2 3 [("A B C D, B C D".toList, false)] (by decide!)⟩

/-! ## The matches of the two patterns -/

theorem rdropWhile_cons (p : Char → Bool) (x : Char) (l : List Char) :
    (x :: l).rdropWhile p =
      if l.rdropWhile p = [] then (if p x then [] else [x]) else x :: l.rdropWhile p := by
  unfold List.rdropWhile
  rw [List.reverse_cons, List.dropWhile_append]
  by_cases h : (List.dropWhile p l.reverse) = []
  · simp [h, List.dropWhile]
    by_cases hx : p x <;> simp [hx]
  · simp [h]

/-- The result of `scanRun` over a stretch of class runes that ends at the end of the text
or before a rune outside the class: the length up to the last word rune of the stretch. -/
theorem scanRun_stretch (cls : Char → Bool) (hcls : ∀ c, isWordChar c = true → cls c = true)
    (rest : List Char) (hrest : ∀ d ∈ rest.head?, cls d = false) (X : List Char) :
    ∀ (prev : Char) (len : Nat) (best : Option Nat), (∀ c ∈ X, cls c = true) →
      scanRun cls prev (X ++ rest) len best =
        if X.rdropWhile (fun c => !isWordChar c) = [] then
          (if isWordChar prev then some len else best)
        else some (len + (X.rdropWhile fun c => !isWordChar c).length) := by
  induction X with
  | nil =>
    intro prev len best _
    simp only [List.nil_append, List.rdropWhile_nil, if_true]
    cases rest with
    | nil =>
      cases h : isWordChar prev <;> simp [scanRun, isWordBoundary, isWordSide, h]
    | cons d r =>
      have hd : cls d = false := hrest d (by simp)
      have hw : isWordChar d = false := by
        cases h : isWordChar d with
        | false => rfl
        | true => rw [hcls d h] at hd; exact absurd hd (by simp)
      cases h : isWordChar prev <;> simp [scanRun, isWordBoundary, isWordSide, hd, hw, h]
  | cons x X ih =>
    intro prev len best hX
    have hx : cls x = true := hX x (by simp)
    have hX2 : ∀ c ∈ X, cls c = true := fun c hc => hX c (by simp [hc])
    rw [List.cons_append, scanRun]
    simp only [hx, if_true]
    rw [ih x (len + 1) _ hX2, rdropWhile_cons]
    by_cases hT : X.rdropWhile (fun c => !isWordChar c) = []
    · cases hwx : isWordChar x <;> cases hwp : isWordChar prev <;>
        simp [hT, isWordBoundary, isWordSide, hwx, hwp]
    · simp only [hT, if_false, List.length_cons]
      congr 1
      omega

theorem not_word_of_not_class (cls : Char → Bool)
    (hcls : ∀ c, isWordChar c = true → cls c = true) (d : Char) (hd : cls d = false) :
    isWordChar d = false := by
  cases h : isWordChar d with
  | false => rfl
  | true => rw [hcls d h] at hd; exact absurd hd (by simp)

/-- The search does not depend on the rune before a rune outside the class. -/
theorem findAllFrom_before_irrelevant (cls : Char → Bool) (rest : List Char)
    (hrest : ∀ d ∈ rest.head?, cls d = false) (p1 p2 : Option Char) :
    findAllFrom cls p1 rest 0 = findAllFrom cls p2 rest 0 := by
  cases rest with
  | nil => simp [findAllFrom]
  | cons d r =>
    have hd : cls d = false := hrest d (by simp)
    simp [findAllFrom, matchAt, hd]

/-- No match starts inside a stretch of class runes that are not word runes. -/
theorem findAllFrom_nonword_stretch (cls : Char → Bool)
    (hcls : ∀ c, isWordChar c = true → cls c = true)
    (rest : List Char) (hrest : ∀ d ∈ rest.head?, cls d = false) (B : List Char) :
    ∀ prev : Option Char, (∀ c ∈ B, cls c = true ∧ isWordChar c = false) →
      findAllFrom cls prev (B ++ rest) 0 = findAllFrom cls none rest 0 := by
  induction B with
  | nil => intro prev _; exact findAllFrom_before_irrelevant cls rest hrest _ _
  | cons b B ih =>
    intro prev hB
    have hB2 : ∀ c ∈ B, cls c = true ∧ isWordChar c = false := fun c hc => hB c (by simp [hc])
    have hb := hB b (by simp)
    have hscan : scanRun cls b (B ++ rest) 1 none = none := by
      rw [scanRun_stretch cls hcls rest hrest B b 1 none (fun c hc => (hB2 c hc).1)]
      have : B.rdropWhile (fun c => !isWordChar c) = [] := by
        rw [List.rdropWhile_eq_nil_iff]
        intro c hc
        simp [(hB2 c hc).2]
      simp [this, hb.2]
    have hm : matchAt cls prev (b :: (B ++ rest)) = none := by
      simp only [matchAt, hscan]
      split <;> rfl
    rw [List.cons_append, findAllFrom, hm]
    exact ih (some b) hB2

theorem findAllFrom_skip (cls : Char → Bool)
    (hcls : ∀ c, isWordChar c = true → cls c = true)
    (rest : List Char) (hrest : ∀ d ∈ rest.head?, cls d = false) (B : List Char)
    (hB : ∀ c ∈ B, cls c = true ∧ isWordChar c = false) (Y : List Char) :
    ∀ prev : Option Char,
      findAllFrom cls prev (Y ++ (B ++ rest)) Y.length = findAllFrom cls none rest 0 := by
  induction Y with
  | nil => intro prev; exact findAllFrom_nonword_stretch cls hcls rest hrest B prev hB
  | cons y Y ih =>
    intro prev
    rw [List.cons_append, List.length_cons, findAllFrom]
    exact ih (some y)

theorem rdropWhile_append_rtakeWhile (p : Char → Bool) (l : List Char) :
    l.rdropWhile p ++ l.rtakeWhile p = l := by
  unfold List.rdropWhile List.rtakeWhile
  rw [← List.reverse_append, List.takeWhile_append_dropWhile, List.reverse_reverse]

theorem trimNonWord_cons_nonword (c : Char) (R : List Char) (hc : isWordChar c = false) :
    trimNonWord (c :: R) = trimNonWord R := by
  unfold trimNonWord
  rw [List.dropWhile_cons]
  simp [hc]

theorem trimNonWord_cons_word (c : Char) (R : List Char) (hc : isWordChar c = true) :
    trimNonWord (c :: R) = c :: R.rdropWhile fun c => !isWordChar c := by
  unfold trimNonWord
  rw [List.dropWhile_cons]
  simp only [hc, Bool.not_true, Bool.false_eq_true, if_false]
  rw [rdropWhile_cons]
  by_cases hT : R.rdropWhile (fun c => !isWordChar c) = []
  · simp [hT, hc]
  · simp [hT]

/-- The matches inside one maximal run of class runes that follows a rune that is not a
word rune: the run cut back to its first and last word rune, if it has one. -/
theorem findAllFrom_run (cls : Char → Bool) (hcls : ∀ c, isWordChar c = true → cls c = true)
    (rest : List Char) (hrest : ∀ d ∈ rest.head?, cls d = false) (R : List Char) :
    ∀ prev : Option Char, isWordSide prev = false → (∀ c ∈ R, cls c = true) →
      findAllFrom cls prev (R ++ rest) 0 =
        (if trimNonWord R = [] then [] else [trimNonWord R]) ++ findAllFrom cls none rest 0 := by
  induction R with
  | nil =>
    intro prev _ _
    have : trimNonWord [] = [] := rfl
    simp only [this, if_true, List.nil_append]
    exact findAllFrom_before_irrelevant cls rest hrest _ _
  | cons c R ih =>
    intro prev hprev hR
    have hR2 : ∀ x ∈ R, cls x = true := fun x hx => hR x (by simp [hx])
    cases hc : isWordChar c with
    | false =>
      have hb : isWordBoundary prev (some c) = false := by
        unfold isWordBoundary
        rw [hprev]
        simp [isWordSide, hc]
      have hm : matchAt cls prev (c :: (R ++ rest)) = none := by
        simp [matchAt, hb]
      rw [List.cons_append, findAllFrom, hm, trimNonWord_cons_nonword c R hc]
      exact ih (some c) (by simpa [isWordSide] using hc) hR2
    | true =>
      have hcc : cls c = true := hcls c hc
      have hm : matchAt cls prev (c :: (R ++ rest)) =
          some (1 + (R.rdropWhile fun c => !isWordChar c).length) := by
        have hb : isWordBoundary prev (some c) = true := by
          unfold isWordBoundary
          rw [hprev]
          simp [isWordSide, hc]
        simp only [matchAt, hb, hcc, Bool.and_self, if_true]
        rw [scanRun_stretch cls hcls rest hrest R c 1 none hR2]
        by_cases hT : R.rdropWhile (fun c => !isWordChar c) = []
        · simp [hT, hc]
        · simp [hT]
      have hsplit := rdropWhile_append_rtakeWhile (fun c => !isWordChar c) R
      have hB : ∀ b ∈ R.rtakeWhile (fun c => !isWordChar c),
          cls b = true ∧ isWordChar b = false := by
        intro b hb
        refine ⟨hR2 b ((List.rtakeWhile_suffix _ _).subset hb), ?_⟩
        simpa using List.mem_rtakeWhile_imp hb
      rw [List.cons_append, findAllFrom, hm, trimNonWord_cons_word c R hc]
      simp only [List.cons_ne_nil, if_false, List.singleton_append]
      have htake : List.take (1 + (R.rdropWhile fun c => !isWordChar c).length)
          (c :: (R ++ rest)) = c :: R.rdropWhile fun c => !isWordChar c := by
        rw [Nat.add_comm, List.take_succ_cons]
        congr 1
        have e : R ++ rest = (R.rdropWhile fun c => !isWordChar c) ++
            ((R.rtakeWhile fun c => !isWordChar c) ++ rest) := by
          rw [← List.append_assoc, hsplit]
        rw [e]
        exact List.take_left' rfl
      rw [htake]
      congr 1
      have hskip := findAllFrom_skip cls hcls rest hrest _ hB
        (R.rdropWhile fun c => !isWordChar c) (some c)
      rw [← List.append_assoc, hsplit] at hskip
      simpa using hskip

theorem trim_filter_nonempty (L : List GoString) :
    ((L.filter fun run => !run.isEmpty).map trimNonWord).filter (fun run => !run.isEmpty) =
      (L.map trimNonWord).filter fun run => !run.isEmpty := by
  induction L with
  | nil => rfl
  | cons r L ih =>
    cases r with
    | nil =>
      have : trimNonWord [] = [] := rfl
      simp [List.filter_cons, this, ih]
    | cons c r => simp [List.filter_cons, ih]

theorem trimmedRuns_eq (cls : Char → Bool) (s : GoString) :
    trimmedRuns cls s =
      ((s.splitOnP fun c => !cls c).map trimNonWord).filter fun run => !run.isEmpty := by
  unfold trimmedRuns maximalRuns
  exact trim_filter_nonempty _

theorem trimmedRuns_all_class (cls : Char → Bool) (R : List Char)
    (hR : ∀ c ∈ R, cls c = true) :
    trimmedRuns cls R = if trimNonWord R = [] then [] else [trimNonWord R] := by
  rw [trimmedRuns_eq, List.splitOnP_eq_single _ _ (by intro x hx; simp [hR x hx])]
  by_cases h : trimNonWord R = []
  · simp [h]
  · simp [h, List.filter_cons]

theorem trimmedRuns_first (cls : Char → Bool) (R : List Char) (hR : ∀ c ∈ R, cls c = true)
    (d : Char) (hd : cls d = false) (r : List Char) :
    trimmedRuns cls (R ++ d :: r) =
      (if trimNonWord R = [] then [] else [trimNonWord R]) ++ trimmedRuns cls r := by
  rw [trimmedRuns_eq, trimmedRuns_eq,
    List.splitOnP_first _ _ (by intro x hx; simp [hR x hx]) d (by simp [hd])]
  by_cases h : trimNonWord R = []
  · simp [h, List.filter_cons]
  · simp [h, List.filter_cons]

/-- The matches of `\b(C{1,})\b` in a text, for a class C that holds every word rune: the
maximal runs of class runes, each cut back to its first and last word rune. -/
theorem findAllFrom_eq_trimmedRuns (cls : Char → Bool)
    (hcls : ∀ c, isWordChar c = true → cls c = true) (n : Nat) :
    ∀ (s : List Char), s.length ≤ n → ∀ prev : Option Char, isWordSide prev = false →
      findAllFrom cls prev s 0 = trimmedRuns cls s := by
  induction n with
  | zero =>
    intro s hs prev _
    have : s = [] := List.length_eq_zero.mp (Nat.le_zero.mp hs)
    subst this
    rfl
  | succ n ih =>
    intro s hs prev hprev
    have hdec := List.takeWhile_append_dropWhile cls s
    have hR : ∀ c ∈ s.takeWhile cls, cls c = true := fun c hc => List.mem_takeWhile_imp hc
    cases hrest : s.dropWhile cls with
    | nil =>
      rw [hrest, List.append_nil] at hdec
      rw [← hdec, trimmedRuns_all_class cls _ hR]
      have := findAllFrom_run cls hcls [] (by simp) (s.takeWhile cls) prev hprev hR
      simpa [findAllFrom] using this
    | cons d r =>
      have hd : cls d = false := by
        have := List.head?_dropWhile_not cls s
        rw [hrest] at this
        simpa using this
      rw [hrest] at hdec
      have hlen : r.length ≤ n := by
        have := congrArg List.length hdec
        simp only [List.length_append, List.length_cons] at this
        omega
      rw [← hdec, trimmedRuns_first cls _ hR d hd r,
        findAllFrom_run cls hcls (d :: r) (by simpa using hd) _ prev hprev hR]
      congr 1
      have hm : matchAt cls none (d :: r) = none := by simp [matchAt, hd]
      rw [findAllFrom, hm]
      exact ih r hlen (some d) (by
        simpa [isWordSide] using not_word_of_not_class cls hcls d hd)

theorem findAllString_eq_trimmedRuns (cls : Char → Bool)
    (hcls : ∀ c, isWordChar c = true → cls c = true) (s : GoString) :
    findAllString cls s = trimmedRuns cls s :=
  findAllFrom_eq_trimmedRuns cls hcls s.length s (Nat.le_refl _) none rfl

/-! ## Words -/

theorem contains_iff_mem (l : List GoString) (w : GoString) :
    contains l w = true ↔ w ∈ l := by
  induction l with
  | nil => simp [contains]
  | cons item l ih =>
    rw [contains]
    by_cases h : item = w
    · simp [h]
    · have h2 : ¬ w = item := fun e => h e.symm
      simp [h, h2, ih]

theorem wordsLoop_false (ms : List GoString) :
    ∀ acc : List GoString, wordsLoop false ms acc = acc ++ ms := by
  induction ms with
  | nil => intro acc; simp [wordsLoop]
  | cons m ms ih => intro acc; simp [wordsLoop, ih]

theorem wordsLoop_true (ms : List GoString) :
    ∀ acc : List GoString, wordsLoop true ms acc =
      acc ++ (ms.map stringsToLower).filter fun w => decide (w ∉ stopwords) := by
  induction ms with
  | nil => intro acc; simp [wordsLoop]
  | cons m ms ih =>
    intro acc
    rw [wordsLoop]
    by_cases h : contains stopwords (stringsToLower m) = true
    · have hm := (contains_iff_mem _ _).mp h
      simp [h, ih, List.filter_cons, hm]
    · have hm : stringsToLower m ∉ stopwords := fun e => h ((contains_iff_mem _ _).mpr e)
      simp [h, ih, List.filter_cons, hm]

theorem words_false_matches (s : GoString) :
    words s false = findAllString isWordClassChar s := by
  unfold words
  rw [wordsLoop_false]
  simp

/-- C11. For every sentence s, `words(s, true)` is the list obtained from `words(s, false)`
by lowercasing every word and dropping exactly those whose lowercase form is in the fixed
stopword list, the remaining words keeping their order; `words(s, false)` is the list of the
matches of the word pattern, with their casing and without filtering. -/
theorem words_normalize (s : GoString) :
    words s true =
      ((words s false).map stringsToLower).filter (fun w => decide (w ∉ stopwords)) ∧
    words s false = findAllString isWordClassChar s := by
  unfold words
  rw [wordsLoop_true, wordsLoop_false]
  simp

/-- C13. For the corpus "the cat the cat" with trigram length and normalize = true the
stopword "the" is removed before the n-grams are generated: the corpus is one sentence, its
word sequence is ["cat", "cat"], `computeNGrams` yields no trigram, and `Count()` is 0 after
`Incorporate` on a freshly initialised store. -/
theorem the_cat_yields_nothing :
    sentences "the cat the cat".toList = ["the cat the cat".toList] ∧
    words "the cat the cat".toList true = ["cat".toList, "cat".toList] ∧
    computeNGrams (words "the cat the cat".toList true) TRIGRAM = some [] ∧
    ((Shingles.zero.Initialize TRIGRAM).Incorporate "the cat the cat".toList true).map
      Shingles.Count = some 0 := by
  decide!

/-! ## Degenerate inputs -/

theorem computeNGrams_too_long (ws : List GoString) (length : Int)
    (h1 : (ws.length : Int) < length) (h2 : length < 2 ^ 63) :
    computeNGrams ws length = some [] := by
  have hw : wrapInt ((ws.length : Int) - length) = (ws.length : Int) - length :=
    wrapInt_of_range _ (by omega) (by omega)
  have hc : ((ws.length : Int) - length + 1).toNat = 0 := by omega
  simp only [computeNGrams, hw, hc, computeNGramsLoop]

theorem incorporateLoop_nothing (normalize : Bool) (sh : Shingles) (ss : List GoString)
    (h : ∀ s ∈ ss, computeNGrams (words s normalize) sh.n = some []) :
    Shingles.incorporateLoop normalize sh ss = some sh := by
  induction ss with
  | nil => rfl
  | cons s ss ih =>
    rw [Shingles.incorporateLoop, h s (by simp)]
    simp only [Shingles.add]
    exact ih (fun t ht => h t (by simp [ht]))

/-- C12. Degenerate inputs give empty results and no failure: for every word list and every
length greater than the length of the list, `computeNGrams` returns the empty sequence; for
every corpus in which each sentence yields fewer than n words, `Incorporate` completes and
leaves the store as it was; the empty corpus does so for every store, and `Count()` is 0
after it on a freshly initialised store. -/
theorem degenerate_inputs (length : Int) (hlen : length < 2 ^ 63) :
    (∀ ws : List GoString, (ws.length : Int) < length → computeNGrams ws length = some []) ∧
    (∀ (sh : Shingles) (corpora : GoString) (normalize : Bool), sh.n = length →
      (∀ s ∈ sentences corpora, ((words s normalize).length : Int) < length) →
      sh.Incorporate corpora normalize = some sh) ∧
    (∀ (sh : Shingles) (normalize : Bool), sh.Incorporate [] normalize = some sh) ∧
    (∀ normalize : Bool,
      ((Shingles.zero.Initialize length).Incorporate [] normalize).map Shingles.Count
        = some 0) := by
  refine ⟨fun ws h => computeNGrams_too_long ws length h hlen, ?_, ?_, ?_⟩
  · intro sh corpora normalize hn hs
    unfold Shingles.Incorporate
    apply incorporateLoop_nothing
    intro s hmem
    rw [hn]
    exact computeNGrams_too_long _ length (hs s hmem) hlen
  · intro sh normalize
    rfl
  · intro normalize
    rfl

theorem degenerate_inputs_witness :
    computeNGrams ["cat".toList, "cat".toList] 3 = some [] ∧
    bcdStore.Incorporate "a b, c d".toList false = some bcdStore ∧
    bcdStore.Incorporate [] true = some bcdStore ∧
    ((Shingles.zero.Initialize 3).Incorporate [] true).map Shingles.Count = some 0 :=
  have H := degenerate_inputs 3 (by decide)
  ⟨H.1 ["cat".toList, "cat".toList] (by decide),
    H.2.1 bcdStore "a b, c d".toList false rfl (by decide!),
    H.2.2.1 bcdStore true, H.2.2.2 true⟩

/-! ## What the tokenizer extracts -/

theorem wordChar_wordClass (c : Char) (h : isWordChar c = true) : isWordClassChar c = true := by
  simp [isWordClassChar, h]

theorem wordChar_sentenceChar (c : Char) (h : isWordChar c = true) :
    isSentenceChar c = true := by
  unfold isSentenceChar
  have h1 : c ≠ '.' := by intro e; rw [e] at h; exact absurd h (by decide)
  have h2 : c ≠ ',' := by intro e; rw [e] at h; exact absurd h (by decide)
  have h3 : c ≠ ';' := by intro e; rw [e] at h; exact absurd h (by decide)
  have h4 : c ≠ '-' := by intro e; rw [e] at h; exact absurd h (by decide)
  have h5 : c ≠ '?' := by intro e; rw [e] at h; exact absurd h (by decide)
  have h6 : c ≠ '!' := by intro e; rw [e] at h; exact absurd h (by decide)
  simp [h1, h2, h3, h4, h5, h6]

theorem sentences_eq_runs (text : GoString) :
    sentences text = trimmedRuns isSentenceChar text :=
  findAllString_eq_trimmedRuns isSentenceChar wordChar_sentenceChar text

/-- C16, the claim as stated fails. In "don't 'stop'" the maximal runs of word characters
are "don't" and "'stop'", but `words` returns "don't" and "stop": the pattern anchors both
ends of a match at a word boundary, so the apostrophes around "stop" are not part of it. -/
theorem words_not_maximal_runs :
    maximalRuns isWordClassChar "don't 'stop'".toList = ["don't".toList, "'stop'".toList] ∧
    words "don't 'stop'".toList false = ["don't".toList, "stop".toList] := by
  decide!

/-- C16, amended. For every sentence s, `words(s, false)` returns, in left-to-right order,
the maximal runs in s of word characters (ASCII letters, digits, underscore, apostrophe,
hyphen), each cut back to the stretch from its first to its last letter, digit or
underscore; a run of apostrophes and hyphens alone yields no word. -/
theorem words_trimmed_runs (s : GoString) :
    words s false = trimmedRuns isWordClassChar s := by
  rw [words_false_matches s]
  exact findAllString_eq_trimmedRuns isWordClassChar wordChar_wordClass s

/-- C17, the claim as stated fails. In "Hello, world" the maximal runs of characters other
than the delimiters are "Hello" and " world", but `sentences` returns "Hello" and "world":
the pattern anchors both ends of a match at a word boundary, so the blank is not part of the
sentence; and the text " , " has two such runs and no sentence. -/
theorem sentences_not_maximal_runs :
    maximalRuns isSentenceChar "Hello, world".toList = ["Hello".toList, " world".toList] ∧
    sentences "Hello, world".toList = ["Hello".toList, "world".toList] ∧
    maximalRuns isSentenceChar " , ".toList = [" ".toList, " ".toList] ∧
    sentences " , ".toList = [] := by
  decide!

/-- C17, amended. For every text, `sentences(text)` returns, in left-to-right order, the
maximal runs in the text of characters other than the delimiters . , ; - ? !, each cut back
to the stretch from its first to its last ASCII letter, digit or underscore; a run without
such a character yields no sentence. -/
theorem sentences_trimmed_runs (text : GoString) :
    sentences text = trimmedRuns isSentenceChar text :=
  sentences_eq_runs text

/-! ## Slices of `computeNGrams` -/

theorem stringsJoin_nil (sep : GoString) : stringsJoin [] sep = [] := by
  simp [stringsJoin, List.intercalate]

/-- C20, the claim as stated fails. With length -2^63 the subtraction `len(words) - length`
wraps to a negative `max`, so the loop does not run: no slice is taken and the empty
sequence is returned, for the empty word list as for a list of one word. -/
theorem computeNGrams_min_length_no_panic :
    computeNGrams [] (-(2 ^ 63)) = some [] ∧
    computeNGrams ["a".toList] (-(2 ^ 63)) = some [] ∧
    computeNGrams ["a".toList] (-(2 ^ 63) + 1) = some [] := by
  decide!

/-- C20, amended. With 64-bit `int`, `computeNGrams(words, length)` takes an out-of-range
slice if and only if length < 0 and `len(words) - length` does not overflow (that is,
length > len(words) - 2^63). For every length ≥ 0 every slice `words[i:i+length]` it takes is
within bounds, and length = 0 returns len(words) + 1 empty strings; for a negative length
without overflow the first loop iteration takes the invalid slice `words[0:length]`, also on
the empty word list; for a negative length with overflow the loop does not run and the
result is empty. -/
theorem computeNGrams_panics_iff (ws : List GoString) (length : Int)
    (hws : (ws.length : Int) + 1 < 2 ^ 63) (hlo : -(2 ^ 63) ≤ length) (hhi : length < 2 ^ 63) :
    (computeNGrams ws length = none ↔ length < 0 ∧ (ws.length : Int) - length < 2 ^ 63) ∧
    (0 ≤ length → ∀ i : Nat, (i : Int) ≤ ws.length - length →
      sliceRange ws i (wrapInt (i + length)) ≠ none) ∧
    (length = 0 → computeNGrams ws length = some (List.replicate (ws.length + 1) [])) ∧
    (length < 0 → (ws.length : Int) - length < 2 ^ 63 →
      sliceRange ws ((0 : Nat) : Int) (wrapInt (((0 : Nat) : Int) + length)) = none) ∧
    (length < 0 → 2 ^ 63 ≤ (ws.length : Int) - length → computeNGrams ws length = some []) := by
  have hneg : length < 0 → (ws.length : Int) - length < 2 ^ 63 →
      computeNGrams ws length = none := by
    intro h1 h2
    have hw : wrapInt ((ws.length : Int) - length) = (ws.length : Int) - length :=
      wrapInt_of_range _ (by omega) (by omega)
    obtain ⟨k, hk⟩ : ∃ k, ((ws.length : Int) - length + 1).toNat = k + 1 :=
      ⟨((ws.length : Int) - length + 1).toNat - 1, by omega⟩
    have hs : sliceRange ws ((0 : Nat) : Int) (wrapInt (((0 : Nat) : Int) + length)) = none := by
      have hw2 : wrapInt (((0 : Nat) : Int) + length) = length := by
        rw [wrapInt_of_range _ (by omega) (by omega)]
        omega
      rw [hw2]
      unfold sliceRange
      rw [if_neg (by omega)]
    simp only [computeNGrams, hw, hk, computeNGramsLoop, hs]
  have hover : length < 0 → 2 ^ 63 ≤ (ws.length : Int) - length →
      computeNGrams ws length = some [] := by
    intro h1 h2
    have hw : wrapInt ((ws.length : Int) - length) = (ws.length : Int) - length - 2 ^ 64 := by
      unfold wrapInt
      omega
    have hc : ((ws.length : Int) - length - 2 ^ 64 + 1).toNat = 0 := by omega
    simp only [computeNGrams, hw, hc, computeNGramsLoop]
  have hpos : 0 ≤ length → computeNGrams ws length ≠ none := by
    intro h0
    obtain ⟨n, hn⟩ := Int.eq_ofNat_of_zero_le h0
    rw [hn]
    exact computeNGrams_ne_none ws n (by omega) (by omega)
  refine ⟨⟨?_, fun h => hneg h.1 h.2⟩, ?_, ?_, ?_, hover⟩
  · intro hnone
    by_cases h0 : 0 ≤ length
    · exact absurd hnone (hpos h0)
    · by_cases h2 : (ws.length : Int) - length < 2 ^ 63
      · exact ⟨by omega, h2⟩
      · rw [hover (by omega) (by omega)] at hnone
        exact absurd hnone (by simp)
  · intro h0 i hi
    obtain ⟨n, hn⟩ := Int.eq_ofNat_of_zero_le h0
    subst hn
    rw [wrapInt_of_range _ (by omega) (by omega), sliceRange_window ws i n (by omega)]
    simp
  · intro h0
    subst h0
    have := computeNGrams_eq ws 0 (by omega) (by decide)
    simp only [Nat.cast_zero] at this
    rw [this]
    refine congrArg some ?_
    apply List.ext_getElem
    · simp
    · intro i h1 h2
      simp [stringsJoin_nil]
  · intro h1 h2
    have hw2 : wrapInt (((0 : Nat) : Int) + length) = length := by
      rw [wrapInt_of_range _ (by omega) (by omega)]
      omega
    rw [hw2]
    unfold sliceRange
    rw [if_neg (by omega)]

theorem computeNGrams_panics_iff_witness :
    (computeNGrams ["a".toList, "b".toList] (-1) = none ↔
      (-1 : Int) < 0 ∧ ((["a".toList, "b".toList].length : Nat) : Int) - (-1) < 2 ^ 63) ∧
    computeNGrams ["a".toList, "b".toList] (-1) = none :=
  have H := computeNGrams_panics_iff ["a".toList, "b".toList] (-1) (by decide) (by decide)
    (by decide)
  ⟨H.1, H.1.mpr ⟨by decide, by decide⟩⟩

/-! ## Reachable states -/

theorem growsTo_refl (sh : Shingles) : sh.GrowsTo sh :=
  ⟨fun _ g h => ⟨g, h, rfl, Nat.le_refl _⟩, Nat.le_refl _⟩

theorem growsTo_trans (a b c : Shingles) (h1 : a.GrowsTo b) (h2 : b.GrowsTo c) :
    a.GrowsTo c := by
  refine ⟨?_, Nat.le_trans h1.2 h2.2⟩
  intro k g hg
  obtain ⟨g1, e1, t1, o1⟩ := h1.1 k g hg
  obtain ⟨g2, e2, t2, o2⟩ := h2.1 k g1 e1
  exact ⟨g2, e2, t2.trans t1, Nat.le_trans o1 o2⟩

theorem addOne_growsTo (sh sh1 : Shingles) (x : GoString) (h : sh.addOne x = some sh1) :
    sh.GrowsTo sh1 := by
  cases hm : sh.ngrams with
  | none => rw [addOne_nil sh x hm] at h; exact absurd h (by simp)
  | some m =>
    obtain ⟨sh2, h2, -, -, h4, h5, -⟩ := addOne_step sh x (by simp [hm])
    rw [h] at h2
    simp only [Option.some.injEq] at h2
    subst h2
    refine ⟨?_, ?_⟩
    · intro k g hg
      rw [h4 k]
      by_cases hk : k = hash x
      · rw [if_pos hk, hg]
        exact ⟨_, rfl, rfl, Nat.le_succ _⟩
      · rw [if_neg hk]
        exact ⟨g, hg, rfl, Nat.le_refl _⟩
    · rw [Shingles.Count, Shingles.Count, h5]
      split
      · simp
      · exact Nat.le_refl _

theorem addOne_positive (sh sh1 : Shingles) (x : GoString) (h : sh.addOne x = some sh1)
    (hp : sh.Positive) : sh1.Positive := by
  cases hm : sh.ngrams with
  | none => rw [addOne_nil sh x hm] at h; exact absurd h (by simp)
  | some m =>
    obtain ⟨sh2, h2, -, -, h4, -, -⟩ := addOne_step sh x (by simp [hm])
    rw [h] at h2
    simp only [Option.some.injEq] at h2
    subst h2
    intro k g hg
    rw [h4 k] at hg
    by_cases hk : k = hash x
    · rw [if_pos hk] at hg
      simp only [Option.some.injEq] at hg
      rw [← hg]
      cases sh.entryOf k with
      | none => exact Nat.le_refl _
      | some g0 => exact Nat.le_add_left _ _
    · rw [if_neg hk] at hg
      exact hp k g hg

theorem add_growsTo (l : List GoString) :
    ∀ sh sh2 : Shingles, sh.add l = some sh2 → sh.GrowsTo sh2 := by
  induction l with
  | nil =>
    intro sh sh2 h
    simp only [Shingles.add, Option.some.injEq] at h
    exact h ▸ growsTo_refl sh
  | cons x l ih =>
    intro sh sh2 h
    cases h1 : sh.addOne x with
    | none => simp [Shingles.add, h1] at h
    | some sh1 =>
      rw [add_cons_of sh sh1 x l h1] at h
      exact growsTo_trans sh sh1 sh2 (addOne_growsTo sh sh1 x h1) (ih sh1 sh2 h)

theorem add_positive (l : List GoString) :
    ∀ sh sh2 : Shingles, sh.add l = some sh2 → sh.Positive → sh2.Positive := by
  induction l with
  | nil =>
    intro sh sh2 h hp
    simp only [Shingles.add, Option.some.injEq] at h
    exact h ▸ hp
  | cons x l ih =>
    intro sh sh2 h hp
    cases h1 : sh.addOne x with
    | none => simp [Shingles.add, h1] at h
    | some sh1 =>
      rw [add_cons_of sh sh1 x l h1] at h
      exact ih sh1 sh2 h (addOne_positive sh sh1 x h1 hp)

theorem read_frame (sh sh1 : Shingles) (op : ReadOp) (h : sh.read op = some sh1) :
    sh1.ngrams = sh.ngrams ∧ sh1.n = sh.n ∧ sh1.hashes.Perm sh.hashes := by
  have := readAll_frame [op] sh sh1 (by simp [Shingles.readAll, h])
  exact this

theorem incorporate_keeps (P : Shingles → Prop)
    (hP : ∀ (l : List GoString) (sh sh2 : Shingles), sh.add l = some sh2 → P sh → P sh2)
    (sh sh1 : Shingles) (corpora : GoString) (normalize : Bool)
    (h : sh.Incorporate corpora normalize = some sh1) (hp : P sh) : P sh1 :=
  incorporateLoop_keeps P hP normalize _ sh sh1 h hp

theorem call_growsTo (sh sh1 : Shingles) (c : Call) (h : sh.call c = some sh1) :
    sh.GrowsTo sh1 := by
  cases c with
  | incorporate corpora normalize =>
    exact incorporate_keeps (fun s => sh.GrowsTo s)
      (fun l a b hab ha => growsTo_trans sh a b ha (add_growsTo l a b hab))
      sh sh1 corpora normalize h (growsTo_refl sh)
  | read op =>
    obtain ⟨h1, -, h3⟩ := read_frame sh sh1 op h
    refine ⟨?_, Nat.le_of_eq h3.length_eq.symm⟩
    intro k g hg
    exact ⟨g, by rw [entryOf_congr sh1 sh h1]; exact hg, rfl, Nat.le_refl _⟩

theorem call_positive (sh sh1 : Shingles) (c : Call) (h : sh.call c = some sh1)
    (hp : sh.Positive) : sh1.Positive := by
  cases c with
  | incorporate corpora normalize =>
    exact incorporate_keeps Shingles.Positive add_positive sh sh1 corpora normalize h hp
  | read op =>
    obtain ⟨h1, -, -⟩ := read_frame sh sh1 op h
    intro k g hg
    rw [entryOf_congr sh1 sh h1] at hg
    exact hp k g hg

theorem call_wellFormed (sh sh1 : Shingles) (c : Call) (h : sh.call c = some sh1)
    (hw : sh.WellFormed) : sh1.WellFormed := by
  cases c with
  | incorporate corpora normalize =>
    exact incorporate_keeps Shingles.WellFormed add_wellFormed sh sh1 corpora normalize h hw
  | read op =>
    obtain ⟨h1, -, h3⟩ := read_frame sh sh1 op h
    refine ⟨by rw [h1]; exact hw.1, ?_, h3.nodup_iff.mpr hw.2.2⟩
    have hk : sh1.keys = sh.keys := by unfold Shingles.keys; rw [h1]
    rw [hk]
    exact hw.2.1.trans h3.symm

theorem callAll_keeps (P : Shingles → Prop)
    (hP : ∀ (sh sh1 : Shingles) (c : Call), sh.call c = some sh1 → P sh → P sh1)
    (calls : List Call) :
    ∀ sh sh2 : Shingles, sh.callAll calls = some sh2 → P sh → P sh2 := by
  induction calls with
  | nil =>
    intro sh sh2 h hp
    simp only [Shingles.callAll, Option.some.injEq] at h
    exact h ▸ hp
  | cons c calls ih =>
    intro sh sh2 h hp
    rw [Shingles.callAll] at h
    cases hc : sh.call c with
    | none => simp [hc] at h
    | some sh1 =>
      simp only [hc] at h
      exact ih sh1 sh2 h (hP sh sh1 c hc hp)

theorem fresh_positive (n : Int) : (Shingles.zero.Initialize n).Positive := by
  intro k g hg
  rw [entryOf_fresh] at hg
  exact absurd hg (by simp)

theorem reachable_wellFormed (n : Int) (calls : List Call) (sh : Shingles)
    (h : (Shingles.zero.Initialize n).callAll calls = some sh) : sh.WellFormed :=
  callAll_keeps Shingles.WellFormed call_wellFormed calls _ sh h (fresh_wellFormed n)

/-- C14. In every state reachable from a freshly initialised store by `Incorporate`, `Walk`
and `SortedWalk` (and `Count`) calls, every stored n-gram has an occurrence count of at
least 1, and no further such call removes a stored key, changes the text stored under a
key, or decreases an occurrence count or `Count()`. -/
theorem store_only_grows (n : Int) (calls : List Call) (sh : Shingles)
    (h : (Shingles.zero.Initialize n).callAll calls = some sh) :
    (∀ k g, sh.entryOf k = some g → 1 ≤ g.occurrences) ∧
    ∀ (c : Call) (sh1 : Shingles), sh.call c = some sh1 →
      (∀ k g, sh.entryOf k = some g →
        ∃ g1, sh1.entryOf k = some g1 ∧ g1.ngram = g.ngram ∧
          g.occurrences ≤ g1.occurrences) ∧
      sh.Count ≤ sh1.Count :=
  ⟨callAll_keeps Shingles.Positive call_positive calls _ sh h (fresh_positive n),
    fun c sh1 hc => call_growsTo sh sh1 c hc⟩

theorem store_only_grows_witness :
    (∀ k g, bcdStore.entryOf k = some g → 1 ≤ g.occurrences) ∧
    ((∀ k g, bcdStore.entryOf k = some g →
        ∃ g1, bcdGrown.entryOf k = some g1 ∧ g1.ngram = g.ngram ∧
          g.occurrences ≤ g1.occurrences) ∧
      bcdStore.Count ≤ bcdGrown.Count) ∧
    ((∀ k g, bcdStore.entryOf k = some g →
        ∃ g1, bcdSorted.entryOf k = some g1 ∧ g1.ngram = g.ngram ∧
          g.occurrences ≤ g1.occurrences) ∧
      bcdStore.Count ≤ bcdSorted.Count) :=
  have H := store_only_grows 3
    [Call.incorporate "A B C D".toList false, Call.read ReadOp.walk,
      Call.incorporate "B C D".toList false] bcdStore (by decide!)
  ⟨H.1, H.2 (Call.incorporate "B C D".toList false) bcdGrown (by decide!),
    H.2 (Call.read ReadOp.sortedWalk) bcdSorted (by decide!)⟩

/-! ## The order sequence and the map -/

theorem less_total (sh : Shingles) (hcov : ∀ k ∈ sh.hashes, sh.occurrencesOf k ≠ none)
    (i j : Nat) (hi : i < sh.Len) (hj : j < sh.Len) : ∃ b, sh.Less i j = some b := by
  unfold Shingles.Len at hi hj
  have ei : sh.hashes[i]? = some (sh.hashes.get ⟨i, hi⟩) := List.getElem?_eq_getElem hi
  have ej : sh.hashes[j]? = some (sh.hashes.get ⟨j, hj⟩) := List.getElem?_eq_getElem hj
  obtain ⟨a, ha⟩ := Option.ne_none_iff_exists'.mp
    (hcov _ (List.get_mem sh.hashes i hi))
  obtain ⟨b, hb⟩ := Option.ne_none_iff_exists'.mp
    (hcov _ (List.get_mem sh.hashes j hj))
  refine ⟨decide (a < b), ?_⟩
  unfold Shingles.Less
  simp only [ei, ej, ha, hb]

/-- C18. In every state reachable from a zero-value store by one `Initialize` call followed
by any sequence of `Incorporate` and `SortedWalk` (and `Count`, `Walk`) calls, the map
exists, the order sequence has no duplicate key, its keys are exactly the keys of the map,
so that `Count()` is the size of the map, and therefore `Less` at valid indices and
`SortedWalk` never look up a key that is absent from the map: both return. -/
theorem order_sequence_matches_map (n : Int) (calls : List Call) (sh : Shingles)
    (h : (Shingles.zero.Initialize n).callAll calls = some sh) :
    sh.ngrams ≠ none ∧ sh.hashes.Nodup ∧ sh.keys.Nodup ∧
    (∀ k, k ∈ sh.hashes ↔ k ∈ sh.keys) ∧ sh.Count = sh.keys.length ∧
    (∀ k ∈ sh.hashes, sh.entryOf k ≠ none) ∧
    (∀ i j, i < sh.Len → j < sh.Len → ∃ b, sh.Less i j = some b) ∧
    ∃ s records, sh.SortedWalk = some (s, records) := by
  have hw := reachable_wellFormed n calls sh h
  have hcov := wellFormed_covered sh hw
  obtain ⟨s, hs, -⟩ := sortedWalk_spec sh hcov
  refine ⟨hw.1, hw.2.2, keys_nodup_of_wellFormed sh hw, fun k => hw.2.1.mem_iff.symm,
    hw.2.1.length_eq.symm, ?_, less_total sh hcov, s, _, hs⟩
  intro k hk hnone
  exact hcov k hk (by rw [occurrencesOf_eq_entryOf, hnone]; rfl)

theorem order_sequence_matches_map_witness :
    bcdSorted.ngrams ≠ none ∧ bcdSorted.hashes.Nodup ∧ bcdSorted.keys.Nodup ∧
    (∀ k, k ∈ bcdSorted.hashes ↔ k ∈ bcdSorted.keys) ∧
    bcdSorted.Count = bcdSorted.keys.length ∧
    (∀ k ∈ bcdSorted.hashes, bcdSorted.entryOf k ≠ none) ∧
    (∀ i j, i < bcdSorted.Len → j < bcdSorted.Len → ∃ b, bcdSorted.Less i j = some b) ∧
    ∃ s records, bcdSorted.SortedWalk = some (s, records) :=
  order_sequence_matches_map 3
    [Call.incorporate "A B C D, B C D".toList false, Call.read ReadOp.sortedWalk]
    bcdSorted (by decide!)

/-! ## Frequencies -/

theorem lookup_of_mem_nodup (m : NGramMap) (hnd : (m.map Prod.fst).Nodup) (e : Nat × NGram)
    (he : e ∈ m) : m.lookup e.1 = some e.2 := by
  induction m with
  | nil => simp at he
  | cons a m ih =>
    obtain ⟨ak, ag⟩ := a
    simp only [List.map_cons, List.nodup_cons] at hnd
    simp only [List.mem_cons] at he
    rcases he with he | he
    · rw [he]
      exact lookup_cons_eq _ _ _
    · have hne : e.1 ≠ ak := by
        intro heq
        exact hnd.1 (heq ▸ List.mem_map_of_mem Prod.fst he)
      rw [lookup_cons_ne _ _ _ _ hne]
      exact ih hnd.2 he

theorem walk_record (sh : Shingles) (hw : sh.WellFormed) (r : Record) (hr : r ∈ sh.Walk) :
    r.frequency = frequency r.count sh.Count ∧
    sh.entryOf r.hash = some { ngram := r.ngram, occurrences := r.count } := by
  have hnd := keys_nodup_of_wellFormed sh hw
  unfold Shingles.Walk at hr
  unfold Shingles.keys at hnd
  cases hm : sh.ngrams with
  | none => rw [hm] at hr; simp at hr
  | some m =>
    rw [hm] at hr hnd
    simp only [Option.getD_some, List.mem_map] at hr hnd
    obtain ⟨e, he, hre⟩ := hr
    subst hre
    refine ⟨rfl, ?_⟩
    simp only [Shingles.entryOf, hm]
    exact lookup_of_mem_nodup m hnd e he

theorem recordsOf_record (sh : Shingles) (l : List Nat) (r : Record)
    (hr : r ∈ sh.recordsOf l) :
    r.frequency = frequency r.count sh.Count ∧
    sh.entryOf r.hash = some { ngram := r.ngram, occurrences := r.count } := by
  unfold Shingles.recordsOf at hr
  rw [List.mem_filterMap] at hr
  obtain ⟨k, -, hk⟩ := hr
  cases he : sh.entryOf k with
  | none => simp [he] at hk
  | some g =>
    simp only [he, Option.map_some', Option.some.injEq] at hk
    subst hk
    exact ⟨rfl, he⟩

/-! ## Rounding to `float32` -/

theorem halvings_spec (fuel : Nat) :
    ∀ n : Nat, n ≤ fuel → n ≠ 0 →
      2 ^ halvings fuel n ≤ n ∧ n < 2 ^ (halvings fuel n + 1) := by
  induction fuel with
  | zero => intro n h1 h2; omega
  | succ fuel ih =>
    intro n h1 h2
    rw [halvings]
    by_cases h : 2 ≤ n
    · rw [if_pos h]
      have hd : n / 2 ≤ fuel := by omega
      have hd0 : n / 2 ≠ 0 := by omega
      obtain ⟨a, b⟩ := ih (n / 2) hd hd0
      simp only [pow_succ] at b ⊢
      generalize 2 ^ halvings fuel (n / 2) = p at a b ⊢
      constructor <;> omega
    · rw [if_neg h]
      have : n = 1 := by omega
      subst this
      simp

theorem log2Floor_spec (n : Nat) (h : n ≠ 0) :
    2 ^ log2Floor n ≤ n ∧ n < 2 ^ (log2Floor n + 1) :=
  halvings_spec n n (Nat.le_refl n) h

/-- The nearest integer is within one half of the quotient. -/
theorem roundHalfEven_spec (n d : Nat) (hd : 0 < d) :
    2 * (roundHalfEven n d * d) ≤ 2 * n + d ∧ 2 * n ≤ 2 * (roundHalfEven n d * d) + d := by
  have hdiv := Nat.div_add_mod n d
  have hmod := Nat.mod_lt n hd
  have e1 : (n / d + 1) * d = d * (n / d) + d := by ring
  have e0 : n / d * d = d * (n / d) := by ring
  unfold roundHalfEven
  split
  · rw [e0]; omega
  · split
    · rw [e1]; omega
    · split
      · rw [e0]; omega
      · rw [e1]; omega

/-- The result of the rounding for a quotient in the range of the normal numbers, from
2^-126 up to 2^127: a finite value with a full mantissa whose distance from the quotient
is at most the quotient divided by 2^24. The statement is scaled by `den * 2 ^ 149`. -/
theorem roundFloat32_spec (num den : Nat) (hden : 0 < den)
    (hlo : 2 ^ 23 * den ≤ num * 2 ^ 149) (hhi : num < den * 2 ^ 127) :
    ∃ m u : Nat, roundFloat32 num den = Float32.finite m ((u : Int) - 149) ∧
      2 ^ 23 ≤ m ∧ m < 2 ^ 24 ∧
      2 ^ 24 * (m * 2 ^ u * den) ≤ (2 ^ 24 + 1) * (num * 2 ^ 149) ∧
      (2 ^ 24 - 1) * (num * 2 ^ 149) ≤ 2 ^ 24 * (m * 2 ^ u * den) := by
  have hq0 : 2 ^ 23 ≤ num * 2 ^ 149 / den := (Nat.le_div_iff_mul_le hden).mpr hlo
  have hq0ne : num * 2 ^ 149 / den ≠ 0 := by
    have : 0 < 2 ^ 23 := by norm_num
    omega
  obtain ⟨hk1, hk2⟩ := log2Floor_spec _ hq0ne
  have hk23 : 23 ≤ log2Floor (num * 2 ^ 149 / den) := by
    have h : 2 ^ 23 < 2 ^ (log2Floor (num * 2 ^ 149 / den) + 1) := Nat.lt_of_le_of_lt hq0 hk2
    have := (Nat.pow_lt_pow_iff_right (by norm_num : 1 < 2)).mp h
    omega
  obtain ⟨ulp, hulp⟩ : ∃ ulp, log2Floor (num * 2 ^ 149 / den) = ulp + 23 :=
    ⟨log2Floor (num * 2 ^ 149 / den) - 23, by omega⟩
  have hsub : log2Floor (num * 2 ^ 149 / den) - 23 = ulp := by omega
  rw [hulp] at hk1 hk2
  have hD : 0 < den * 2 ^ ulp := Nat.mul_pos hden (by positivity)
  have hlow : 2 ^ 23 * (den * 2 ^ ulp) ≤ num * 2 ^ 149 := by
    have := (Nat.le_div_iff_mul_le hden).mp hk1
    calc 2 ^ 23 * (den * 2 ^ ulp) = 2 ^ (ulp + 23) * den := by ring
      _ ≤ num * 2 ^ 149 := this
  have hupp : num * 2 ^ 149 < 2 ^ 24 * (den * 2 ^ ulp) := by
    have := (Nat.div_lt_iff_lt_mul hden).mp hk2
    calc num * 2 ^ 149 < 2 ^ (ulp + 23 + 1) * den := this
      _ = 2 ^ 24 * (den * 2 ^ ulp) := by ring
  have hulp252 : ulp ≤ 252 := by
    have h1 : 2 ^ (ulp + 23) * den < 2 ^ 276 * den := by
      calc 2 ^ (ulp + 23) * den = 2 ^ 23 * (den * 2 ^ ulp) := by ring
        _ ≤ num * 2 ^ 149 := hlow
        _ < den * 2 ^ 127 * 2 ^ 149 := Nat.mul_lt_mul_of_pos_right hhi (by positivity)
        _ = 2 ^ 276 * den := by ring
    have h2 := Nat.lt_of_mul_lt_mul_right h1
    have := (Nat.pow_lt_pow_iff_right (by norm_num : 1 < 2)).mp h2
    omega
  obtain ⟨hr1, hr2⟩ := roundHalfEven_spec (num * 2 ^ 149) (den * 2 ^ ulp) hD
  have hm23 : 2 ^ 23 ≤ roundHalfEven (num * 2 ^ 149) (den * 2 ^ ulp) := by
    by_contra hc
    have hle : roundHalfEven (num * 2 ^ 149) (den * 2 ^ ulp) ≤ 2 ^ 23 - 1 := by omega
    have := Nat.mul_le_mul_right (den * 2 ^ ulp) hle
    omega
  have hm24 : roundHalfEven (num * 2 ^ 149) (den * 2 ^ ulp) ≤ 2 ^ 24 := by
    by_contra hc
    have hle : 2 ^ 24 + 1 ≤ roundHalfEven (num * 2 ^ 149) (den * 2 ^ ulp) := by omega
    have := Nat.mul_le_mul_right (den * 2 ^ ulp) hle
    omega
  unfold roundFloat32
  simp only [hsub]
  by_cases hcarry : roundHalfEven (num * 2 ^ 149) (den * 2 ^ ulp) = 2 ^ 24
  · refine ⟨2 ^ 23, ulp + 1, ?_, Nat.le_refl _, by norm_num, ?_, ?_⟩
    · rw [if_pos hcarry, if_neg (by omega)]
      push_cast
      rfl
    · have e : 2 ^ 23 * 2 ^ (ulp + 1) * den = 2 ^ 24 * (den * 2 ^ ulp) := by ring
      rw [hcarry] at hr1 hr2
      rw [e]
      omega
    · have e : 2 ^ 23 * 2 ^ (ulp + 1) * den = 2 ^ 24 * (den * 2 ^ ulp) := by ring
      rw [hcarry] at hr1 hr2
      rw [e]
      omega
  · refine ⟨roundHalfEven (num * 2 ^ 149) (den * 2 ^ ulp), ulp, ?_, hm23, by omega, ?_, ?_⟩
    · rw [if_neg hcarry, if_neg (by omega)]
    · have e : roundHalfEven (num * 2 ^ 149) (den * 2 ^ ulp) * 2 ^ ulp * den =
          roundHalfEven (num * 2 ^ 149) (den * 2 ^ ulp) * (den * 2 ^ ulp) := by ring
      rw [e]
      omega
    · have e : roundHalfEven (num * 2 ^ 149) (den * 2 ^ ulp) * 2 ^ ulp * den =
          roundHalfEven (num * 2 ^ 149) (den * 2 ^ ulp) * (den * 2 ^ ulp) := by ring
      rw [e]
      omega

theorem value_finite (m u : Nat) :
    (Float32.finite m ((u : Int) - 149)).value = (m : ℚ) * 2 ^ u / 2 ^ 149 := by
  simp only [Float32.value]
  rw [zpow_sub₀ (by norm_num : (2 : ℚ) ≠ 0), zpow_natCast]
  have : ((2 : ℚ) ^ (149 : ℤ)) = 2 ^ 149 := by norm_cast
  rw [this]
  ring

/-- The rounding in rational terms: the value returned lies within the quotient divided by
2^24 of the quotient. -/
theorem roundFloat32_close (num den : Nat) (hden : 0 < den)
    (hlo : 2 ^ 23 * den ≤ num * 2 ^ 149) (hhi : num < den * 2 ^ 127) :
    ∃ m u : Nat, roundFloat32 num den = Float32.finite m ((u : Int) - 149) ∧
      2 ^ 23 ≤ m ∧ m < 2 ^ 24 ∧
      2 ^ 24 * (m * 2 ^ u * den) ≤ (2 ^ 24 + 1) * (num * 2 ^ 149) ∧
      (2 ^ 24 - 1) * (num * 2 ^ 149) ≤ 2 ^ 24 * (m * 2 ^ u * den) ∧
      |(roundFloat32 num den).value - (num : ℚ) / den| ≤ (num : ℚ) / den / 2 ^ 24 := by
  obtain ⟨m, u, h1, h2, h3, h4, h5⟩ := roundFloat32_spec num den hden hlo hhi
  refine ⟨m, u, h1, h2, h3, h4, h5, ?_⟩
  rw [h1, value_finite]
  have hd : (0 : ℚ) < den := by exact_mod_cast hden
  have c4 : (2 ^ 24 : ℚ) * (m * 2 ^ u * den) ≤ (2 ^ 24 + 1) * (num * 2 ^ 149) := by
    exact_mod_cast h4
  have h5' : 16777215 * (num * 2 ^ 149) ≤ 2 ^ 24 * (m * 2 ^ u * den) := by
    simpa using h5
  have c5 : (16777215 : ℚ) * (num * 2 ^ 149) ≤ 2 ^ 24 * (m * 2 ^ u * den) := by
    exact_mod_cast h5'
  have hp : (0 : ℚ) < 2 ^ 149 := by positivity
  generalize (2 : ℚ) ^ 149 = P at c4 c5 hp ⊢
  generalize (m : ℚ) * 2 ^ u = M at c4 c5 ⊢
  generalize (num : ℚ) = N at c4 c5 ⊢
  generalize (den : ℚ) = D at c4 c5 hd ⊢
  have hPD : 0 < P * D := mul_pos hp hd
  have e : M / P - N / D = (M * D - N * P) / (P * D) := by
    field_simp
    ring
  have e2 : N / D / 2 ^ 24 = (N * P / 2 ^ 24) / (P * D) := by
    field_simp
    ring
  rw [e, e2, abs_div, abs_of_pos hPD, div_le_div_iff_of_pos_right hPD, abs_le]
  constructor <;> linarith

/-- The conversion of a positive `int` to `float32`: a finite value with a full mantissa,
within the number divided by 2^24 of the number. -/
theorem float32_close (c : Nat) (h1 : 1 ≤ c) (h2 : c < 2 ^ 63) :
    ∃ m u : Nat, float32 c = Float32.finite m ((u : Int) - 149) ∧
      2 ^ 23 ≤ m ∧ m < 2 ^ 24 ∧ 125 ≤ u ∧ u ≤ 189 ∧
      |(float32 c).value - (c : ℚ)| ≤ (c : ℚ) / 2 ^ 24 := by
  have hlo : 2 ^ 23 * 1 ≤ c * 2 ^ 149 := by omega
  have hhi : c < 1 * 2 ^ 127 := by omega
  obtain ⟨m, u, e, hm1, hm2, h4, h5, hq⟩ := roundFloat32_close c 1 (by norm_num) hlo hhi
  refine ⟨m, u, e, hm1, hm2, ?_, ?_, ?_⟩
  · by_contra hc
    have hu : u ≤ 124 := by omega
    have hpow : 2 ^ u ≤ 2 ^ 124 := Nat.pow_le_pow_right (by norm_num) hu
    have hmul : m * 2 ^ u ≤ 2 ^ 24 * 2 ^ 124 := Nat.mul_le_mul (by omega) hpow
    omega
  · by_contra hc
    have hu : 190 ≤ u := by omega
    have hpow : 2 ^ 190 ≤ 2 ^ u := Nat.pow_le_pow_right (by norm_num) hu
    have hmul : 2 ^ 23 * 2 ^ 190 ≤ m * 2 ^ u := Nat.mul_le_mul hm1 hpow
    omega
  · simpa [float32] using hq

theorem pow_sub_ratio (a b : Nat) :
    ((2 : ℚ) ^ (a - b)) / 2 ^ (b - a) = 2 ^ a / 2 ^ b := by
  rcases Nat.le_total a b with h | h
  · obtain ⟨k, rfl⟩ := Nat.exists_eq_add_of_le h
    have e1 : a - (a + k) = 0 := by omega
    have e2 : a + k - a = k := by omega
    rw [e1, e2, pow_add]
    field_simp
  · obtain ⟨k, rfl⟩ := Nat.exists_eq_add_of_le h
    have e1 : b - (b + k) = 0 := by omega
    have e2 : b + k - b = k := by omega
    rw [e1, e2, pow_add]
    field_simp

/-- The division of two finite values with full mantissas whose exponents are those of
converted positive `int`s: a finite value within the quotient divided by 2^24 of the
quotient. -/
theorem div_close (ma ua mb ub : Nat) (ha1 : 2 ^ 23 ≤ ma) (ha2 : ma < 2 ^ 24)
    (hb1 : 2 ^ 23 ≤ mb) (hb2 : mb < 2 ^ 24) (hua1 : 125 ≤ ua) (hua2 : ua ≤ 189)
    (hub1 : 125 ≤ ub) (hub2 : ub ≤ 189) :
    ∃ m e, (Float32.finite ma ((ua : Int) - 149)).div (Float32.finite mb ((ub : Int) - 149))
        = Float32.finite m e ∧
      |((Float32.finite ma ((ua : Int) - 149)).div
            (Float32.finite mb ((ub : Int) - 149))).value
          - (Float32.finite ma ((ua : Int) - 149)).value
            / (Float32.finite mb ((ub : Int) - 149)).value|
        ≤ (Float32.finite ma ((ua : Int) - 149)).value
            / (Float32.finite mb ((ub : Int) - 149)).value / 2 ^ 24 := by
  have t1 : ((ua : Int) - 149 - ((ub : Int) - 149)).toNat = ua - ub := by omega
  have t2 : ((ub : Int) - 149 - ((ua : Int) - 149)).toNat = ub - ua := by omega
  have hmb : mb ≠ 0 := by omega
  have hdiv : (Float32.finite ma ((ua : Int) - 149)).div (Float32.finite mb ((ub : Int) - 149))
      = roundFloat32 (ma * 2 ^ (ua - ub)) (mb * 2 ^ (ub - ua)) := by
    simp only [Float32.div, if_neg hmb, t1, t2]
  have p1 : 2 ^ (ua - ub) ≤ 2 ^ 64 := Nat.pow_le_pow_right (by norm_num) (by omega)
  have p2 : 2 ^ (ub - ua) ≤ 2 ^ 64 := Nat.pow_le_pow_right (by norm_num) (by omega)
  have q1 : 1 ≤ 2 ^ (ua - ub) := Nat.one_le_two_pow
  have q2 : 1 ≤ 2 ^ (ub - ua) := Nat.one_le_two_pow
  have hden : 0 < mb * 2 ^ (ub - ua) := Nat.mul_pos (by omega) (by omega)
  have hlo : 2 ^ 23 * (mb * 2 ^ (ub - ua)) ≤ ma * 2 ^ (ua - ub) * 2 ^ 149 := by
    have a1 : mb * 2 ^ (ub - ua) ≤ 2 ^ 24 * 2 ^ 64 := Nat.mul_le_mul (by omega) p2
    have a2 : 2 ^ 23 * 1 ≤ ma * 2 ^ (ua - ub) := Nat.mul_le_mul ha1 q1
    omega
  have hhi : ma * 2 ^ (ua - ub) < mb * 2 ^ (ub - ua) * 2 ^ 127 := by
    have a1 : ma * 2 ^ (ua - ub) ≤ 2 ^ 24 * 2 ^ 64 := Nat.mul_le_mul (by omega) p1
    have a2 : 2 ^ 23 * 1 ≤ mb * 2 ^ (ub - ua) := Nat.mul_le_mul hb1 q2
    omega
  obtain ⟨m, u, e, -, -, -, -, hq⟩ := roundFloat32_close _ _ hden hlo hhi
  have hmbq : (mb : ℚ) ≠ 0 := by exact_mod_cast hmb
  have hratio : (((ma * 2 ^ (ua - ub) : Nat) : ℚ)) / ((mb * 2 ^ (ub - ua) : Nat) : ℚ)
      = (Float32.finite ma ((ua : Int) - 149)).value
        / (Float32.finite mb ((ub : Int) - 149)).value := by
    rw [value_finite, value_finite]
    push_cast
    have h := pow_sub_ratio ua ub
    have e1 : (ma : ℚ) * 2 ^ (ua - ub) / (mb * 2 ^ (ub - ua))
        = (ma : ℚ) / mb * ((2 : ℚ) ^ (ua - ub) / 2 ^ (ub - ua)) := by
      field_simp
    have e2 : (ma : ℚ) * 2 ^ ua / 2 ^ 149 / (mb * 2 ^ ub / 2 ^ 149)
        = (ma : ℚ) / mb * ((2 : ℚ) ^ ua / 2 ^ ub) := by
      field_simp
    rw [e1, e2, h]
  rw [hdiv, ← hratio]
  exact ⟨m, _, e, hq⟩

/-- Three roundings in a row, each within 2^-24 of its exact result, leave the quotient
within 2^-22 of the exact quotient. -/
theorem three_roundings (a b c t f : ℚ) (hc : 0 < c) (ht : 0 < t)
    (ha : |a - c| ≤ c / 2 ^ 24) (hb : |b - t| ≤ t / 2 ^ 24)
    (hf : |f - a / b| ≤ a / b / 2 ^ 24) :
    |f - c / t| ≤ c / t / 2 ^ 22 := by
  obtain ⟨ha1, ha2⟩ := abs_le.mp ha
  obtain ⟨hb1, hb2⟩ := abs_le.mp hb
  obtain ⟨hf1, hf2⟩ := abs_le.mp hf
  have hapos : 0 < a := by linarith
  have hbpos : 0 < b := by linarith
  have hrpos : 0 < a / b := div_pos hapos hbpos
  have hr : a / b * b = a := div_mul_cancel₀ a (ne_of_gt hbpos)
  have hqt : c / t * t = c := div_mul_cancel₀ c (ne_of_gt ht)
  generalize a / b = r at hf1 hf2 hrpos hr
  generalize c / t = q at hqt ⊢
  have lo1 : r * (t * (1 - 1 / 2 ^ 24)) ≤ r * b :=
    mul_le_mul_of_nonneg_left (by linarith) (le_of_lt hrpos)
  have lo2 : r * b ≤ r * (t * (1 + 1 / 2 ^ 24)) :=
    mul_le_mul_of_nonneg_left (by linarith) (le_of_lt hrpos)
  have htpos1 : 0 < t * (1 - 1 / 2 ^ 24) := mul_pos ht (by norm_num)
  have htpos2 : 0 < t * (1 + 1 / 2 ^ 24) := mul_pos ht (by norm_num)
  have up : f * (t * (1 - 1 / 2 ^ 24)) ≤ q * (1 + 1 / 2 ^ 22) * (t * (1 - 1 / 2 ^ 24)) := by
    have s1 : f * (t * (1 - 1 / 2 ^ 24))
        ≤ r * (1 + 1 / 2 ^ 24) * (t * (1 - 1 / 2 ^ 24)) :=
      mul_le_mul_of_nonneg_right (by linarith) (le_of_lt htpos1)
    have s2 : r * (1 + 1 / 2 ^ 24) * (t * (1 - 1 / 2 ^ 24))
        = r * (t * (1 - 1 / 2 ^ 24)) * (1 + 1 / 2 ^ 24) := by ring
    have s3 : r * (t * (1 - 1 / 2 ^ 24)) * (1 + 1 / 2 ^ 24)
        ≤ c * (1 + 1 / 2 ^ 24) * (1 + 1 / 2 ^ 24) :=
      mul_le_mul_of_nonneg_right (by linarith) (by norm_num)
    have s4 : q * (1 + 1 / 2 ^ 22) * (t * (1 - 1 / 2 ^ 24))
        = c * ((1 + 1 / 2 ^ 22) * (1 - 1 / 2 ^ 24)) := by
      rw [← hqt]; ring
    rw [s4]
    linarith
  have dn : q * (1 - 1 / 2 ^ 22) * (t * (1 + 1 / 2 ^ 24)) ≤ f * (t * (1 + 1 / 2 ^ 24)) := by
    have s1 : r * (1 - 1 / 2 ^ 24) * (t * (1 + 1 / 2 ^ 24))
        ≤ f * (t * (1 + 1 / 2 ^ 24)) :=
      mul_le_mul_of_nonneg_right (by linarith) (le_of_lt htpos2)
    have s2 : r * (1 - 1 / 2 ^ 24) * (t * (1 + 1 / 2 ^ 24))
        = r * (t * (1 + 1 / 2 ^ 24)) * (1 - 1 / 2 ^ 24) := by ring
    have s3 : c * (1 - 1 / 2 ^ 24) * (1 - 1 / 2 ^ 24)
        ≤ r * (t * (1 + 1 / 2 ^ 24)) * (1 - 1 / 2 ^ 24) :=
      mul_le_mul_of_nonneg_right (by linarith) (by norm_num)
    have s4 : q * (1 - 1 / 2 ^ 22) * (t * (1 + 1 / 2 ^ 24))
        = c * ((1 - 1 / 2 ^ 22) * (1 + 1 / 2 ^ 24)) := by
      rw [← hqt]; ring
    rw [s4]
    linarith
  have up1 := le_of_mul_le_mul_right up htpos1
  have dn1 := le_of_mul_le_mul_right dn htpos2
  rw [abs_le]
  constructor <;> linarith

/-- The quotient `frequency(count, total)` of two positive `int`s is a finite `float32`
within 2^-22, relatively, of the exact quotient. -/
theorem frequency_close (c t : Nat) (hc1 : 1 ≤ c) (hc2 : c < 2 ^ 63) (ht1 : 1 ≤ t)
    (ht2 : t < 2 ^ 63) :
    ∃ m e, frequency c t = Float32.finite m e ∧
      |(frequency c t).value - (c : ℚ) / t| ≤ (c : ℚ) / t / 2 ^ 22 := by
  obtain ⟨ma, ua, ea, a1, a2, a3, a4, a5⟩ := float32_close c hc1 hc2
  obtain ⟨mb, ub, eb, b1, b2, b3, b4, b5⟩ := float32_close t ht1 ht2
  obtain ⟨m, e, hd, hq⟩ := div_close ma ua mb ub a1 a2 b1 b2 a3 a4 b3 b4
  have hcq : (0 : ℚ) < c := by exact_mod_cast hc1
  have htq : (0 : ℚ) < t := by exact_mod_cast ht1
  unfold frequency
  rw [ea] at a5 ⊢
  rw [eb] at b5 ⊢
  exact ⟨m, e, hd, three_roundings _ _ _ _ _ hcq htq a5 b5 hq⟩

/-- C15. In every state reachable from a freshly initialised store, every record enumerated
by `Walk()` or `SortedWalk()` shows the entry stored under its key, and its frequency is
the `float32` quotient of the occurrence count of that entry, converted to `float32`, and of
`Count()`, converted to `float32`; both are at least 1, and when both are in the range of
`int` the frequency is a finite number that differs from (occurrence count) / `Count()` by
at most that quotient divided by 2^22. `Count()` is the number of entries of the map (the
distinct n-grams stored), not the total number of occurrences: with "A B C" counted once
and "B C D" twice the frequencies are exactly 1/2 and 1, not 1/3 and 2/3. -/
theorem record_frequency (n : Int) (calls : List Call) (sh : Shingles)
    (h : (Shingles.zero.Initialize n).callAll calls = some sh) :
    (∀ r ∈ sh.Walk,
      sh.entryOf r.hash = some { ngram := r.ngram, occurrences := r.count } ∧
      1 ≤ r.count ∧ 1 ≤ sh.Count ∧
      r.frequency = (float32 r.count).div (float32 sh.Count) ∧
      (r.count < 2 ^ 63 → sh.Count < 2 ^ 63 →
        ∃ m e, r.frequency = Float32.finite m e ∧
          |r.frequency.value - (r.count : ℚ) / sh.Count|
            ≤ (r.count : ℚ) / sh.Count / 2 ^ 22)) ∧
    (∃ s records, sh.SortedWalk = some (s, records) ∧
      ∀ r ∈ records,
        sh.entryOf r.hash = some { ngram := r.ngram, occurrences := r.count } ∧
        1 ≤ r.count ∧ 1 ≤ sh.Count ∧
        r.frequency = (float32 r.count).div (float32 sh.Count) ∧
        (r.count < 2 ^ 63 → sh.Count < 2 ^ 63 →
          ∃ m e, r.frequency = Float32.finite m e ∧
            |r.frequency.value - (r.count : ℚ) / sh.Count|
              ≤ (r.count : ℚ) / sh.Count / 2 ^ 22)) ∧
    sh.Count = sh.keys.length ∧
    bcdStore.Walk.map (fun r => (String.mk r.ngram, r.count, r.frequency))
      = [("A B C", 1, Float32.finite 8388608 (-24)),
         ("B C D", 2, Float32.finite 8388608 (-23))] ∧
    (Float32.finite 8388608 (-24)).value = 1 / 2 ∧
    (Float32.finite 8388608 (-23)).value = 1 := by
  have hw := reachable_wellFormed n calls sh h
  have hp : sh.Positive :=
    callAll_keeps Shingles.Positive call_positive calls _ sh h (fresh_positive n)
  have hcov := wellFormed_covered sh hw
  have hlen : sh.Count = sh.keys.length := hw.2.1.length_eq.symm
  have hpos : ∀ k g, sh.entryOf k = some g → 1 ≤ sh.Count := by
    intro k g hg
    have hk : k ∈ sh.keys := by
      by_contra hc
      rw [(entryOf_eq_none_iff sh k hw.1).mpr hc] at hg
      exact absurd hg (by simp)
    rw [hlen]
    exact List.length_pos_of_mem hk
  have hrec : ∀ r : Record, r.frequency = frequency r.count sh.Count →
      sh.entryOf r.hash = some { ngram := r.ngram, occurrences := r.count } →
      sh.entryOf r.hash = some { ngram := r.ngram, occurrences := r.count } ∧
      1 ≤ r.count ∧ 1 ≤ sh.Count ∧
      r.frequency = (float32 r.count).div (float32 sh.Count) ∧
      (r.count < 2 ^ 63 → sh.Count < 2 ^ 63 →
        ∃ m e, r.frequency = Float32.finite m e ∧
          |r.frequency.value - (r.count : ℚ) / sh.Count|
            ≤ (r.count : ℚ) / sh.Count / 2 ^ 22) := by
    intro r h1 h2
    have hc1 : 1 ≤ r.count := hp _ _ h2
    have ht1 : 1 ≤ sh.Count := hpos _ _ h2
    refine ⟨h2, hc1, ht1, h1, ?_⟩
    intro hc2 ht2
    rw [h1]
    exact frequency_close r.count sh.Count hc1 hc2 ht1 ht2
  refine ⟨?_, ?_, hlen, by decide!, ?_, ?_⟩
  · intro r hr
    obtain ⟨h1, h2⟩ := walk_record sh hw r hr
    exact hrec r h1 h2
  · obtain ⟨s, hs, h2, -, h4, -, -⟩ := sortedWalk_spec sh hcov
    refine ⟨s, _, hs, ?_⟩
    intro r hr
    have hc : s.Count = sh.Count := h4.length_eq
    obtain ⟨e1, e2⟩ := recordsOf_record s s.hashes r hr
    rw [hc] at e1
    rw [entryOf_congr s sh h2] at e2
    exact hrec r e1 e2
  · simp only [Float32.value]
    norm_num
  · simp only [Float32.value]
    norm_num

theorem record_frequency_witness :
    (∀ r ∈ bcdStore.Walk,
      bcdStore.entryOf r.hash = some { ngram := r.ngram, occurrences := r.count } ∧
      1 ≤ r.count ∧ 1 ≤ bcdStore.Count ∧
      r.frequency = (float32 r.count).div (float32 bcdStore.Count) ∧
      (r.count < 2 ^ 63 → bcdStore.Count < 2 ^ 63 →
        ∃ m e, r.frequency = Float32.finite m e ∧
          |r.frequency.value - (r.count : ℚ) / bcdStore.Count|
            ≤ (r.count : ℚ) / bcdStore.Count / 2 ^ 22)) ∧
    (∃ s records, bcdStore.SortedWalk = some (s, records) ∧
      ∀ r ∈ records,
        bcdStore.entryOf r.hash = some { ngram := r.ngram, occurrences := r.count } ∧
        1 ≤ r.count ∧ 1 ≤ bcdStore.Count ∧
        r.frequency = (float32 r.count).div (float32 bcdStore.Count) ∧
        (r.count < 2 ^ 63 → bcdStore.Count < 2 ^ 63 →
          ∃ m e, r.frequency = Float32.finite m e ∧
            |r.frequency.value - (r.count : ℚ) / bcdStore.Count|
              ≤ (r.count : ℚ) / bcdStore.Count / 2 ^ 22)) ∧
    bcdStore.Count = bcdStore.keys.length ∧
    bcdStore.Walk.map (fun r => (String.mk r.ngram, r.count, r.frequency))
      = [("A B C", 1, Float32.finite 8388608 (-24)),
         ("B C D", 2, Float32.finite 8388608 (-23))] ∧
    (Float32.finite 8388608 (-24)).value = 1 / 2 ∧
    (Float32.finite 8388608 (-23)).value = 1 :=
  record_frequency 3 [Call.incorporate "A B C D, B C D".toList false] bcdStore (by decide!)

/-! ## The shape of the stored texts -/

theorem splitOnP_mem (p : Char → Bool) (s : List Char) :
    ∀ run ∈ s.splitOnP p, ∀ x ∈ run, p x = false ∧ x ∈ s := by
  induction s with
  | nil =>
    intro run hrun x hx
    simp only [List.splitOnP_nil, List.mem_singleton] at hrun
    subst hrun
    simp at hx
  | cons a s ih =>
    intro run hrun x hx
    rw [List.splitOnP_cons] at hrun
    by_cases hp : p a = true
    · simp only [hp, if_true, List.mem_cons] at hrun
      rcases hrun with hrun | hrun
      · subst hrun; simp at hx
      · obtain ⟨h1, h2⟩ := ih run hrun x hx
        exact ⟨h1, List.mem_cons_of_mem _ h2⟩
    · simp only [hp, if_false] at hrun
      cases hs : s.splitOnP p with
      | nil => rw [hs] at hrun; simp [List.modifyHead] at hrun
      | cons r0 rs =>
        rw [hs] at hrun ih
        have hrun2 : run = a :: r0 ∨ run ∈ rs := by
          have : run ∈ (a :: r0) :: rs := hrun
          simpa using this
        rcases hrun2 with hrun | hrun
        · subst hrun
          simp only [List.mem_cons] at hx
          rcases hx with hx | hx
          · subst hx
            exact ⟨by simpa using hp, List.mem_cons_self _ _⟩
          · obtain ⟨h1, h2⟩ := ih r0 (by simp) x hx
            exact ⟨h1, List.mem_cons_of_mem _ h2⟩
        · obtain ⟨h1, h2⟩ := ih run (by simp [hrun]) x hx
          exact ⟨h1, List.mem_cons_of_mem _ h2⟩

theorem trimNonWord_subset (run : GoString) : ∀ x ∈ trimNonWord run, x ∈ run := by
  intro x hx
  unfold trimNonWord at hx
  exact (List.dropWhile_sublist _).subset ((List.rdropWhile_prefix _ _).subset hx)

/-- Every match of a pattern is a non-empty stretch of class runes of the text. -/
theorem trimmedRuns_mem (cls : Char → Bool) (s w : GoString) (hw : w ∈ trimmedRuns cls s) :
    w ≠ [] ∧ ∀ x ∈ w, cls x = true ∧ x ∈ s := by
  rw [trimmedRuns_eq, List.mem_filter, List.mem_map] at hw
  obtain ⟨⟨run, hrun, hrw⟩, hne⟩ := hw
  refine ⟨by intro e; rw [e] at hne; simp at hne, ?_⟩
  intro x hx
  rw [← hrw] at hx
  obtain ⟨h1, h2⟩ := splitOnP_mem _ s run hrun x (trimNonWord_subset run x hx)
  exact ⟨by simpa using h1, h2⟩

theorem toLower_of_upper (P : Char → Prop) (hP : ∀ n : Nat, 65 ≤ n → n ≤ 90 →
    P (Char.ofNat (n + 32))) (c : Char) (hc : P c) : P c.toLower := by
  unfold Char.toLower
  simp only
  split
  · rename_i h
    exact hP c.toNat h.1 h.2
  · exact hc

theorem toLower_wordClass (c : Char) (h : isWordClassChar c = true) :
    isWordClassChar c.toLower = true := by
  refine toLower_of_upper (fun c => isWordClassChar c = true) ?_ c h
  intro n h1 h2
  interval_cases n <;> decide

theorem toLower_sentenceChar (c : Char) (h : isSentenceChar c = true) :
    isSentenceChar c.toLower = true := by
  refine toLower_of_upper (fun c => isSentenceChar c = true) ?_ c h
  intro n h1 h2
  interval_cases n <;> decide

theorem wordsLoop_mem (normalize : Bool) (ms : List GoString) :
    ∀ (acc : List GoString) (w : GoString), w ∈ wordsLoop normalize ms acc →
      w ∈ acc ∨ ∃ m ∈ ms, w = m ∨ w = stringsToLower m := by
  induction ms with
  | nil => intro acc w hw; left; simpa [wordsLoop] using hw
  | cons m ms ih =>
    intro acc w hw
    rw [wordsLoop] at hw
    have lift : (∃ m1 ∈ ms, w = m1 ∨ w = stringsToLower m1) →
        ∃ m1 ∈ m :: ms, w = m1 ∨ w = stringsToLower m1 := by
      rintro ⟨m1, hm1, h⟩
      exact ⟨m1, List.mem_cons_of_mem _ hm1, h⟩
    split at hw
    · split at hw
      · rcases ih acc w hw with h | h
        · exact Or.inl h
        · exact Or.inr (lift h)
      · rcases ih _ w hw with h | h
        · simp only [List.mem_append, List.mem_singleton] at h
          rcases h with h | h
          · exact Or.inl h
          · exact Or.inr ⟨m, by simp, Or.inr h⟩
        · exact Or.inr (lift h)
    · rcases ih _ w hw with h | h
      · simp only [List.mem_append, List.mem_singleton] at h
        rcases h with h | h
        · exact Or.inl h
        · exact Or.inr ⟨m, by simp, Or.inl h⟩
      · exact Or.inr (lift h)

/-- Every word of a sentence is a non-empty string of word-class characters none of which
is a sentence delimiter. -/
theorem word_shape (corpora sentence w : GoString) (normalize : Bool)
    (hs : sentence ∈ sentences corpora) (hw : w ∈ words sentence normalize) :
    w ≠ [] ∧ ∀ c ∈ w, isWordClassChar c = true ∧ isSentenceChar c = true := by
  rw [sentences_eq_runs] at hs
  have hsent := (trimmedRuns_mem isSentenceChar corpora sentence hs).2
  unfold words at hw
  rcases wordsLoop_mem normalize _ [] w hw with h | ⟨m, hm, h⟩
  · simp at h
  · rw [findAllString_eq_trimmedRuns isWordClassChar wordChar_wordClass] at hm
    obtain ⟨hne, hch⟩ := trimmedRuns_mem isWordClassChar sentence m hm
    rcases h with h | h
    · subst h
      exact ⟨hne, fun c hc => ⟨(hch c hc).1, (hsent c (hch c hc).2).1⟩⟩
    · subst h
      refine ⟨by simpa [stringsToLower] using hne, ?_⟩
      intro c hc
      simp only [stringsToLower, List.mem_map] at hc
      obtain ⟨c0, hc0, hcc⟩ := hc
      subst hcc
      exact ⟨toLower_wordClass c0 (hch c0 hc0).1,
        toLower_sentenceChar c0 (hsent c0 (hch c0 hc0).2).1⟩

theorem mem_intersperse_imp (sep : List Char) (ws : List GoString) :
    ∀ l ∈ ws.intersperse sep, l = sep ∨ l ∈ ws := by
  induction ws with
  | nil => intro l hl; simp at hl
  | cons w ws ih =>
    intro l hl
    cases ws with
    | nil =>
      simp only [List.intersperse_single, List.mem_singleton] at hl
      exact Or.inr (by simp [hl])
    | cons w2 ws =>
      rw [List.intersperse_cons₂] at hl
      simp only [List.mem_cons] at hl
      rcases hl with hl | hl | hl
      · exact Or.inr (by simp [hl])
      · exact Or.inl hl
      · rcases ih l hl with h | h
        · exact Or.inl h
        · exact Or.inr (List.mem_cons_of_mem _ h)

theorem mem_intercalate (sep : List Char) (ws : List GoString) (c : Char)
    (hc : c ∈ List.intercalate sep ws) : c ∈ sep ∨ ∃ w ∈ ws, c ∈ w := by
  unfold List.intercalate at hc
  rw [List.mem_flatten] at hc
  obtain ⟨l, hl, hcl⟩ := hc
  rcases mem_intersperse_imp sep ws l hl with h | h
  · exact Or.inl (h ▸ hcl)
  · exact Or.inr ⟨l, h, hcl⟩

theorem sentenceChar_iff (c : Char) :
    isSentenceChar c = true ↔ c ∉ ['.', ',', ';', '-', '?', '!'] := by
  simp [isSentenceChar, and_assoc]

theorem generated_shape (n : Nat) (hn : n < 2 ^ 63) (corpora : GoString) (normalize : Bool)
    (hlen : corpora.length < 2 ^ 63) (x : GoString) (hx : x ∈ generated n corpora normalize) :
    ∃ ws : List GoString, ws.length = n ∧ x = List.intercalate [' '] ws ∧
      ∀ w ∈ ws, w ≠ [] ∧ ∀ c ∈ w, isWordClassChar c = true ∧ isSentenceChar c = true := by
  unfold generated at hx
  rw [List.mem_flatMap] at hx
  obtain ⟨sentence, hs, hxs⟩ := hx
  have h1 := words_length_le sentence normalize
  have h2 := sentences_mem_length_le corpora sentence hs
  rw [computeNGrams_eq (words sentence normalize) n (by omega) hn] at hxs
  simp only [Option.getD_some, List.mem_map, List.mem_range'_1] at hxs
  obtain ⟨j, ⟨-, hj⟩, hxj⟩ := hxs
  refine ⟨((words sentence normalize).drop j).take n, ?_, ?_, ?_⟩
  · simp only [List.length_take, List.length_drop]
    omega
  · rw [← hxj]
    rfl
  · intro w hw
    have hmem : w ∈ words sentence normalize :=
      (List.drop_subset _ _) ((List.take_subset _ _) hw)
    exact word_shape corpora sentence w normalize hs hmem

theorem entry_text_mem (l : List GoString) (n : Int) (sh : Shingles)
    (h : (Shingles.zero.Initialize n).add l = some sh) (k : Nat) (g : NGram)
    (hg : sh.entryOf k = some g) : g.ngram ∈ l := by
  have := add_entryOf_ngram l _ sh h k
  rw [hg, entryOf_fresh] at this
  simp only [Option.map_some'] at this
  exact List.mem_of_find?_eq_some this.symm

/-- C19. For every n-gram length n (1 or more; 0 as well), every normalize flag and every
sequence of corpora incorporated into a freshly initialised store, each stored n-gram text
consists of exactly n non-empty words joined by single blanks, every word is made of
word-class characters that are neither a blank nor a sentence delimiter, and the text holds
none of the delimiters . , ; - ? ! (so no stored n-gram holds a hyphen). -/
theorem stored_ngram_shape (n : Nat) (calls : List (GoString × Bool)) (hn : n < 2 ^ 63)
    (hlen : ∀ call ∈ calls, call.1.length < 2 ^ 63) :
    ∃ sh, (Shingles.zero.Initialize n).incorporateAll calls = some sh ∧
      ∀ k g, sh.entryOf k = some g →
        (∃ ws : List GoString, ws.length = n ∧ g.ngram = List.intercalate [' '] ws ∧
          ∀ w ∈ ws, w ≠ [] ∧ ∀ c ∈ w, isWordClassChar c = true ∧ c ≠ ' ' ∧
            c ∉ ['.', ',', ';', '-', '?', '!']) ∧
        ∀ c ∈ g.ngram, c ∉ ['.', ',', ';', '-', '?', '!'] := by
  obtain ⟨sh, h1, h2⟩ := fresh_run n hn calls hlen
  refine ⟨sh, h1, ?_⟩
  intro k g hg
  have hmem := entry_text_mem _ _ sh h2 k g hg
  unfold generatedAll at hmem
  rw [List.mem_flatMap] at hmem
  obtain ⟨call, hcall, hx⟩ := hmem
  obtain ⟨ws, hws, htext, hshape⟩ :=
    generated_shape n hn call.1 call.2 (hlen call hcall) g.ngram hx
  refine ⟨⟨ws, hws, htext, ?_⟩, ?_⟩
  · intro w hw
    obtain ⟨hne, hch⟩ := hshape w hw
    refine ⟨hne, fun c hc => ⟨(hch c hc).1, ?_, (sentenceChar_iff c).mp (hch c hc).2⟩⟩
    intro e
    have := (hch c hc).1
    rw [e] at this
    exact absurd this (by decide)
  · intro c hc
    rw [htext] at hc
    rcases mem_intercalate _ _ c hc with h | ⟨w, hw, hcw⟩
    · simp only [List.mem_singleton] at h
      rw [h]
      decide
    · exact (sentenceChar_iff c).mp ((hshape w hw).2 c hcw).2

theorem stored_ngram_shape_witness :
    ∃ sh, (Shingles.zero.Initialize (2 : Nat)).incorporateAll
        [("Well-known facts, isn't it?".toList, false), ("The Far End".toList, true)] = some sh ∧
      ∀ k g, sh.entryOf k = some g →
        (∃ ws : List GoString, ws.length = 2 ∧ g.ngram = List.intercalate [' '] ws ∧
          ∀ w ∈ ws, w ≠ [] ∧ ∀ c ∈ w, isWordClassChar c = true ∧ c ≠ ' ' ∧
            c ∉ ['.', ',', ';', '-', '?', '!']) ∧
        ∀ c ∈ g.ngram, c ∉ ['.', ',', ';', '-', '?', '!'] :=
  stored_ngram_shape 2
    [("Well-known facts, isn't it?".toList, false), ("The Far End".toList, true)]
    (by decide) (by decide)

end Goshingles
